import Mathlib

/-!
Verification of the two EVE SDE extraction pipelines
(`scripts/extract_item_volumes.py` and `scripts/extract_ore_data.py`).

The scripts are shallowly embedded over a JSON value type `JVal`.
Python-level behaviour is modelled as follows.

* Decoded JSON values: `JVal` (objects as association lists, numbers as
  rationals; the int/float distinction of Python is conflated, which is
  harmless because every claim only exercises integral numbers).
* Python exceptions (`KeyError` on `rec[k]`, `TypeError` on unhashable
  dict/set keys, `AttributeError` on `.lower()`/`.get` of non-dicts, ...)
  are modelled with `Except PyErr`.
* Python dicts are association lists in insertion order where assigning to
  an existing key replaces the value in place (`dinsert`), matching CPython
  semantics; sets are lists without duplicates (`sadd`/`smem`).
* Python `==` as used by the scripts only ever compares hashable scalars
  (`_key`s, `groupID`s, `materialTypeID`s against each other or literals);
  `pyEqS` implements it on the scalar fragment.  Python's unification of
  `True` with `1` is not modelled: no claim touches boolean keys.
* `list.sort` is Timsort, a stable sort; since a stable sort's output is
  uniquely determined by the key order, it is embedded as Mathlib's
  (equally stable) `List.insertionSort`.  Sorting raises `TypeError` when
  keys are of mixed incomparable types; this is modelled by requiring all
  sort keys to be strings, or all numeric (lists of length at most one
  always sort).  The exotic case of list-valued names, which CPython can
  sometimes sort, is conservatively mapped to an error; no claim reaches it.
* String comparison is lexicographic on code points (`strLtL`), exactly as
  in CPython; `str.lower` is modelled on the ASCII range, which is all the
  literal `"compressed"` test can be sensitive to for ASCII ore names.
-/

/-- A decoded JSON value (the result of Python's `json.loads`), with JSON
null also standing for Python `None`. -/
inductive JVal where
  | jnull : JVal
  | jbool (b : Bool) : JVal
  | jnum (q : Rat) : JVal
  | jstr (s : String) : JVal
  | jarr (xs : List JVal) : JVal
  | jobj (fs : List (String × JVal)) : JVal

/-- Fields of a decoded JSON object (a Python dict with string keys). -/
abbrev Obj := List (String × JVal)

/-- Field access on an object: `d.get(k)` without a default, as `Option`.
`json.loads` collapses duplicate keys, so first-match lookup is adequate. -/
def objGet (fs : Obj) (k : String) : Option JVal :=
  (fs.find? (fun p => p.1 == k)).map (fun p => p.2)

/-- Python `d.get(k, dflt)` on a decoded object. -/
def objGetD (fs : Obj) (k : String) (dflt : JVal) : JVal :=
  (objGet fs k).getD dflt

/-- Python truthiness of a decoded JSON value (`None`, `False`, `0`, `""`,
`[]`, `{}` are falsy). -/
def pyTruthy : JVal → Bool
  | .jnull => false
  | .jbool b => b
  | .jnum q => !(q == 0)
  | .jstr s => !(s == "")
  | .jarr xs => !xs.isEmpty
  | .jobj fs => !fs.isEmpty

/-- Whether a value may be used as a Python dict/set key (lists and dicts
are unhashable). -/
def isHashable : JVal → Bool
  | .jarr _ => false
  | .jobj _ => false
  | _ => true

/-- Python `==` on the hashable scalar fragment, which is the only place the
scripts compare values.  Any comparison involving a list or dict value is
`false` here (such comparisons only ever occur against numeric literals in
the source, where CPython also yields `False`). -/
def pyEqS : JVal → JVal → Bool
  | .jnull, .jnull => true
  | .jbool a, .jbool b => a == b
  | .jnum a, .jnum b => a == b
  | .jstr a, .jstr b => a == b
  | _, _ => false

/-- Numeric reading of a value for contexts where Python coerces bools to
ints (arithmetic); `none` means the operation raises `TypeError`. -/
def pyToRat : JVal → Option Rat
  | .jnum q => some q
  | .jbool b => some (if b then 1 else 0)
  | _ => none

/-- Decimal rendering of a rational for `str()`/f-strings.  All rendered
values in the claims are integers; non-integral rationals (which in Python
would be floats with their own repr algorithm) get a fraction rendering. -/
def renderNum (q : Rat) : String :=
  if q.den == 1 then toString q.num else toString q.num ++ "/" ++ toString q.den

mutual

/-- Python `repr()` of a decoded JSON value (used by `str()` on nested
containers; strings are quoted). -/
def pyRepr : JVal → String
  | .jnull => "None"
  | .jbool b => if b then "True" else "False"
  | .jnum q => renderNum q
  | .jstr s => "'" ++ s ++ "'"
  | .jarr xs => "[" ++ String.intercalate ", " (pyReprList xs) ++ "]"
  | .jobj fs => "\x7b" ++ String.intercalate ", " (pyReprObj fs) ++ "\x7d"

/-- Renders list elements with `pyRepr`. -/
def pyReprList : List JVal → List String
  | [] => []
  | v :: vs => pyRepr v :: pyReprList vs

/-- Renders dict entries with `pyRepr`. -/
def pyReprObj : List (String × JVal) → List String
  | [] => []
  | (k, v) :: fs => ("'" ++ k ++ "': " ++ pyRepr v) :: pyReprObj fs

end

/-- Python `str()` of a decoded JSON value. -/
def pyStr : JVal → String
  | .jstr s => s
  | v => pyRepr v

/-- ASCII lower-casing of a character (Python's `str.lower` restricted to
ASCII, sufficient for the `"compressed"` substring test). -/
def lowerChar (c : Char) : Char :=
  if 65 ≤ c.toNat ∧ c.toNat ≤ 90 then Char.ofNat (c.toNat + 32) else c

/-- ASCII lower-casing of a string. -/
def lowerStr (s : String) : String := ⟨s.data.map lowerChar⟩

/-- Python `needle in hay` on strings: substring containment. -/
def containsSub (hay needle : String) : Bool :=
  hay.data.tails.any (fun t => needle.data.isPrefixOf t)

/-- Characters removed by Python `str.strip()` with no arguments (ASCII
whitespace; Unicode whitespace is out of scope for the claims). -/
def isPySpace (c : Char) : Bool :=
  c == ' ' || c == '\t' || c == '\n' || c == '\x0d' || c == '\x0b' || c == '\x0c'

/-- Python `line.strip()`. -/
def pyStrip (s : String) : String :=
  ⟨(s.data.dropWhile isPySpace).reverse.dropWhile isPySpace |>.reverse⟩

/-- CPython dict assignment `d[k] = v`: replaces the value in place if the
key is present (keeping its insertion position), else appends. -/
def dinsert (d : List (JVal × α)) (k : JVal) (v : α) : List (JVal × α) :=
  if d.any (fun p => pyEqS p.1 k) then
    d.map (fun p => if pyEqS p.1 k then (p.1, v) else p)
  else d ++ [(k, v)]

/-- CPython dict lookup `d.get(k)` under `pyEqS` key equality. -/
def dget (d : List (JVal × α)) (k : JVal) : Option α :=
  (d.find? (fun p => pyEqS p.1 k)).map (fun p => p.2)

/-- CPython dict assignment for string-keyed dicts (the `reprocessing`
mapping, whose keys are `str(type_id)`). -/
def dinsertS (d : List (String × α)) (k : String) (v : α) : List (String × α) :=
  if d.any (fun p => p.1 == k) then
    d.map (fun p => if p.1 == k then (p.1, v) else p)
  else d ++ [(k, v)]

/-- CPython set insertion `s.add(k)` (hashability is checked at call
sites). -/
def sadd (s : List JVal) (k : JVal) : List JVal :=
  if s.any (fun x => pyEqS x k) then s else s ++ [k]

/-- CPython set membership `k in s`. -/
def smem (s : List JVal) (k : JVal) : Bool :=
  s.any (fun x => pyEqS x k)

/-- Python exceptions relevant to the scripts. -/
inductive PyErr where
  | keyError : PyErr
  | typeError : PyErr

/-- Computations that may raise a Python exception. -/
abbrev PyM (α : Type) := Except PyErr α

/-- Subscription `rec[k]` on a decoded record: `KeyError` when absent. -/
def subscr (fs : Obj) (k : String) : PyM JVal :=
  match objGet fs k with
  | some v => .ok v
  | none => .error .keyError

/-- Views a decoded value as a dict, as required by `v[k]`, `v.get`,
iteration over records, etc.; non-dicts raise. -/
def asObj : JVal → PyM Obj
  | .jobj fs => .ok fs
  | _ => .error .typeError

/-- Views a decoded value as a list for iteration; other values raise (or,
for strings and dicts, iterate into per-element `TypeError`s downstream in
the one place this is used). -/
def asArr : JVal → PyM (List JVal)
  | .jarr xs => .ok xs
  | _ => .error .typeError

/-- Embeds `load_jsonl`: one decoded object per non-blank (after `strip`)
line, in file order; the first malformed line aborts with its parse error.
`json.loads` is external library code and is abstracted as `loads`. -/
def load_jsonl {ε α : Type} (loads : String → Except ε α) : List String → Except ε (List α)
  | [] => .ok []
  | l :: ls =>
      if pyStrip l == "" then load_jsonl loads ls
      else
        match loads (pyStrip l) with
        | .error e => .error e
        | .ok v =>
            match load_jsonl loads ls with
            | .error e => .error e
            | .ok rest => .ok (v :: rest)

/-- Embeds `get_name` (identical in both scripts): resolve the English
display name of a record.  A missing `name` defaults to `{}`; a dict-valued
`name` yields its `en` entry when present and otherwise the fallback
`"Unknown_<key>"` string; a non-dict `name` is coerced with `str()`.  The
function is total: it raises no exception on any record. -/
def get_name (item : Obj) : JVal :=
  match objGetD item "name" (.jobj []) with
  | .jobj nf =>
      match objGet nf "en" with
      | some v => v
      | none => .jstr ("Unknown_" ++ pyStr (objGetD item "_key" (.jstr "?")))
  | v => .jstr (pyStr v)

/-- Code-point lexicographic strict order on character lists: CPython's
string `<`. -/
def strLtL : List Char → List Char → Bool
  | [], [] => false
  | [], _ :: _ => true
  | _ :: _, [] => false
  | a :: as, b :: bs =>
      if a.toNat < b.toNat then true
      else if b.toNat < a.toNat then false
      else strLtL as bs

/-- String `s <= t` as CPython's sort comparisons induce it. -/
def strLeB (s t : String) : Bool := !(strLtL t.data s.data)

theorem strLtL_cons_iff {a b : Char} {as bs : List Char} :
    strLtL (a :: as) (b :: bs) = true ↔
      a.toNat < b.toNat ∨ (a.toNat = b.toNat ∧ strLtL as bs = true) := by
  simp only [strLtL]
  by_cases h1 : a.toNat < b.toNat
  · simp [h1]
  · by_cases h2 : b.toNat < a.toNat
    · simp [h1, h2]
      omega
    · have h3 : a.toNat = b.toNat := by omega
      simp [h1, h2, h3]

theorem strLtL_irrefl (l : List Char) : strLtL l l = false := by
  induction l with
  | nil => rfl
  | cons a as ih => simp [strLtL, ih]

theorem strLtL_trans {l m n : List Char} (h1 : strLtL l m = true)
    (h2 : strLtL m n = true) : strLtL l n = true := by
  induction l generalizing m n with
  | nil =>
    cases n with
    | nil =>
      cases m with
      | nil => exact h1
      | cons b bs => simp [strLtL] at h2
    | cons c cs => simp [strLtL]
  | cons a as ih =>
    cases m with
    | nil => simp [strLtL] at h1
    | cons b bs =>
      cases n with
      | nil => simp [strLtL] at h2
      | cons c cs =>
        rw [strLtL_cons_iff] at h1 h2 ⊢
        rcases h1 with h1 | ⟨h1e, h1r⟩
        · rcases h2 with h2 | ⟨h2e, h2r⟩
          · exact Or.inl (by omega)
          · exact Or.inl (by omega)
        · rcases h2 with h2 | ⟨h2e, h2r⟩
          · exact Or.inl (by omega)
          · exact Or.inr ⟨by omega, ih h1r h2r⟩

theorem strLeB_total (s t : String) : strLeB s t = true ∨ strLeB t s = true := by
  by_cases h : strLtL t.data s.data = true
  · right
    simp only [strLeB]
    cases hc : strLtL s.data t.data with
    | false => rfl
    | true =>
        have h2 := strLtL_trans hc h
        rw [strLtL_irrefl] at h2
        exact absurd h2 (by simp)
  · left
    simp only [strLeB]
    simp only [Bool.not_eq_true] at h
    rw [h]
    rfl

theorem charEq_of_toNat_eq {a b : Char} (h : a.toNat = b.toNat) : a = b :=
  Char.eq_of_val_eq (UInt32.ext h)

theorem strLtL_connex {l m : List Char} (h1 : strLtL l m = false)
    (h2 : strLtL m l = false) : l = m := by
  induction l generalizing m with
  | nil =>
    cases m with
    | nil => rfl
    | cons b bs => simp [strLtL] at h1
  | cons a as ih =>
    cases m with
    | nil => simp [strLtL] at h2
    | cons b bs =>
      simp only [strLtL] at h1 h2
      by_cases hab : a.toNat < b.toNat
      · simp [hab] at h1
      · by_cases hba : b.toNat < a.toNat
        · simp [hba, hab] at h2
        · have he : a = b := charEq_of_toNat_eq (by omega)
          simp [hab, hba] at h1 h2
          rw [he, ih h1 h2]

theorem strLeB_trans {s t u : String} (h1 : strLeB s t = true)
    (h2 : strLeB t u = true) : strLeB s u = true := by
  simp only [strLeB, Bool.not_eq_true'] at h1 h2 ⊢
  by_contra hus
  simp only [Bool.not_eq_false] at hus
  cases htu : strLtL t.data u.data with
  | true =>
      have := strLtL_trans htu hus
      rw [h1] at this
      exact Bool.false_ne_true this
  | false =>
      have he : u.data = t.data := strLtL_connex h2 htu
      rw [he] at hus
      rw [h1] at hus
      exact Bool.false_ne_true hus

theorem strLeB_refl (s : String) : strLeB s s = true := by
  simp [strLeB, strLtL_irrefl]

/-- Extracts the string of a string-valued JSON value. -/
def jstrOf : JVal → Option String
  | .jstr s => some s
  | _ => none

/-- String sort key of an element under a `JVal`-valued key function (only
meaningful when the key is a string, which the sort checks first). -/
def strKeyOf (key : α → JVal) (a : α) : String := (jstrOf (key a)).getD ""

/-- Numeric sort key of an element (only meaningful when the key is a
number or bool, which CPython compares numerically). -/
def ratKeyOf (key : α → JVal) (a : α) : Rat := (pyToRat (key a)).getD 0

/-- Sort relation for all-string keys. -/
def strKeyRel (key : α → JVal) : α → α → Prop :=
  fun a b => strLeB (strKeyOf key a) (strKeyOf key b) = true

/-- Sort relation for all-numeric keys. -/
def ratKeyRel (key : α → JVal) : α → α → Prop :=
  fun a b => ratKeyOf key a ≤ ratKeyOf key b

instance (key : α → JVal) : DecidableRel (strKeyRel key) :=
  fun _ _ => instDecidableEqBool _ _

instance (key : α → JVal) : DecidableRel (ratKeyRel key) :=
  fun _ _ => Rat.instDecidableLe _ _

instance (key : α → JVal) : IsTotal α (strKeyRel key) :=
  ⟨fun _ _ => strLeB_total _ _⟩

instance (key : α → JVal) : IsTrans α (strKeyRel key) :=
  ⟨fun _ _ _ => strLeB_trans⟩

instance (key : α → JVal) : IsTotal α (ratKeyRel key) :=
  ⟨fun _ _ => le_total _ _⟩

instance (key : α → JVal) : IsTrans α (ratKeyRel key) :=
  ⟨fun _ _ _ => le_trans⟩

/-- Embeds `lst.sort(key=...)` for a `JVal`-valued key: a stable sort.
Lists of at most one element never invoke a comparison; otherwise CPython
requires the keys to be mutually orderable, here: all strings, or all
numbers/bools (which CPython compares numerically).  Anything else raises
`TypeError`.  (CPython can also sort all-list keys and can miss an
incomparable pair in rare comparison orders; those corners are mapped to an
error and are unreachable by every claim.) -/
def sortPyList (key : α → JVal) (l : List α) : PyM (List α) :=
  if l.length ≤ 1 then .ok l
  else if l.all (fun x => (jstrOf (key x)).isSome) then
    .ok (List.insertionSort (strKeyRel key) l)
  else if l.all (fun x => (pyToRat (key x)).isSome) then
    .ok (List.insertionSort (ratKeyRel key) l)
  else .error .typeError

/-- Resolved group information stored in `group_lookup`
(`{name, categoryID, categoryName}`). -/
structure GroupInfo where
  name : JVal
  categoryID : JVal
  categoryName : JVal

/-- An output record of the item pipeline. -/
structure Item where
  typeID : JVal
  name : JVal
  volume : JVal
  groupID : JVal
  groupName : JVal
  categoryID : JVal
  categoryName : JVal

/-- Metadata block of `data/items.json`. -/
structure ItemsMeta where
  source : String
  itemCount : Nat
  categoryCount : Nat
  itemsWithZeroVolume : Nat
  categories : List (JVal × Nat)

/-- The whole `data/items.json` artifact. -/
structure ItemsOutput where
  metadata : ItemsMeta
  items : List Item

/-- Embeds the comprehension
`{c['_key']: get_name(c) for c in categories}`: each record must be a dict
with a hashable `_key`; later duplicates overwrite earlier entries. -/
def category_lookup (acc : List (JVal × JVal)) : List JVal → PyM (List (JVal × JVal))
  | [] => .ok acc
  | c :: cs =>
      match asObj c with
      | .error e => .error e
      | .ok cf =>
          match subscr cf "_key" with
          | .error e => .error e
          | .ok k =>
              if isHashable k then category_lookup (dinsert acc k (get_name cf)) cs
              else .error .typeError

/-- Embeds the `group_lookup` comprehension: maps each group `_key` to its
resolved name, raw `categoryID` (default `None`), and the category name
resolved through `category_lookup` with default `"Unknown"`. -/
def group_lookup (cl : List (JVal × JVal)) (acc : List (JVal × GroupInfo)) :
    List JVal → PyM (List (JVal × GroupInfo))
  | [] => .ok acc
  | g :: gs =>
      match asObj g with
      | .error e => .error e
      | .ok gf =>
          match subscr gf "_key" with
          | .error e => .error e
          | .ok k =>
              if isHashable (objGetD gf "categoryID" .jnull) then
                if isHashable k then
                  group_lookup cl
                    (dinsert acc k
                      ⟨get_name gf, objGetD gf "categoryID" .jnull,
                        (dget cl (objGetD gf "categoryID" .jnull)).getD (.jstr "Unknown")⟩)
                    gs
                else .error .typeError
              else .error .typeError

/-- The default group info used when a type's `groupID` misses the lookup:
`{'name': 'Unknown', 'categoryID': None, 'categoryName': 'Unknown'}`. -/
def unknownGroup : GroupInfo := ⟨.jstr "Unknown", .jnull, .jstr "Unknown"⟩

/-- Embeds one iteration of the item extraction loop, applied to a type
record already viewed as a dict: reads `_key` (fatal when missing),
`groupID`, name, `volume` (default `0`), `published` (default `False`);
skips unpublished records (`none`); otherwise joins against `group_lookup`
and emits the enriched item. -/
def emit_item (gl : List (JVal × GroupInfo)) (t : Obj) : PyM (Option Item) :=
  match subscr t "_key" with
  | .error e => .error e
  | .ok typeID =>
      let groupID := objGetD t "groupID" .jnull
      let name := get_name t
      let volume := objGetD t "volume" (.jnum 0)
      let published := objGetD t "published" (.jbool false)
      if pyTruthy published then
        if isHashable groupID then
          let gi := (dget gl groupID).getD unknownGroup
          .ok (some ⟨typeID, name, volume, groupID, gi.name, gi.categoryID, gi.categoryName⟩)
        else .error .typeError
      else .ok none

/-- Embeds the `for t in types` extraction loop of the item pipeline. -/
def extract_items (gl : List (JVal × GroupInfo)) : List JVal → PyM (List Item)
  | [] => .ok []
  | tv :: ts =>
      match asObj tv with
      | .error e => .error e
      | .ok t =>
          match emit_item gl t with
          | .error e => .error e
          | .ok r =>
              match extract_items gl ts with
              | .error e => .error e
              | .ok rest =>
                  match r with
                  | some it => .ok (it :: rest)
                  | none => .ok rest

/-- Embeds the statistics loop of the item pipeline: per-category counts
(insertion-ordered dict keyed by the category name value), and the
zero-volume count.  `total_volume += item['volume']` contributes only its
`TypeError` on non-numeric volumes (the accumulated total is dead: it is
never printed nor written). -/
def stats_loop (byCat : List (JVal × Nat)) (zc : Nat) : List Item → PyM (List (JVal × Nat) × Nat)
  | [] => .ok (byCat, zc)
  | it :: its =>
      if isHashable it.categoryName then
        match pyToRat it.volume with
        | some r =>
            stats_loop (dinsert byCat it.categoryName ((dget byCat it.categoryName).getD 0 + 1))
              (if r == 0 then zc + 1 else zc) its
        | none => .error .typeError
      else .error .typeError

/-- Embeds `main` of `extract_item_volumes.py` from the three decoded
record lists to the written artifact (loading is `load_jsonl`, modelled
separately; console printing and filesystem effects are irrelevant to the
output's value).  Statistics printed after the file is written cannot
affect it and are not modelled. -/
def items_main (categories groups types : List JVal) : PyM ItemsOutput :=
  match category_lookup [] categories with
  | .error e => .error e
  | .ok cl =>
      match group_lookup cl [] groups with
      | .error e => .error e
      | .ok gl =>
          match extract_items gl types with
          | .error e => .error e
          | .ok raw =>
              match sortPyList (fun it => it.name) raw with
              | .error e => .error e
              | .ok items =>
                  match stats_loop [] 0 items with
                  | .error e => .error e
                  | .ok st =>
                      .ok ⟨⟨"EVE Online SDE", items.length, st.1.length, st.2, st.1⟩, items⟩

/-- An output ore record.  The `name` is a `String` because the record is
only built after `'compressed' in name.lower()` succeeded, which requires a
string name. -/
structure Ore where
  typeID : JVal
  name : String
  volume : JVal
  groupID : JVal
  compressed : Bool

/-- An output mineral record. -/
structure Mineral where
  typeID : JVal
  name : JVal
  volume : JVal

/-- One reprocessing yield entry `{mineralID, quantity}`. -/
structure Yield where
  mineralID : JVal
  quantity : JVal

/-- Metadata block of `data/ores.json`. -/
structure OresMeta where
  source : String
  oreCount : Nat
  mineralCount : Nat
  reprocessingCount : Nat

/-- The whole `data/ores.json` artifact. -/
structure OresOutput where
  metadata : OresMeta
  ores : List Ore
  minerals : List Mineral
  reprocessing : List (String × List Yield)

/-- Embeds the scan of `groups.jsonl` collecting `_key`s of groups with
`categoryID == 25` (the Asteroid category) into the ore-group id set. -/
def ore_group_ids (acc : List JVal) : List JVal → PyM (List JVal)
  | [] => .ok acc
  | g :: gs =>
      match asObj g with
      | .error e => .error e
      | .ok gf =>
          if pyEqS (objGetD gf "categoryID" .jnull) (.jnum 25) then
            match subscr gf "_key" with
            | .error e => .error e
            | .ok k =>
                if isHashable k then ore_group_ids (sadd acc k) gs
                else .error .typeError
          else ore_group_ids acc gs

/-- Embeds one iteration of the ore/mineral extraction loop on a type
record viewed as a dict: unpublished records are skipped; a published
record whose `groupID` is in the ore-group set becomes an `Ore` (with
`compressed` the case-insensitive substring test of `"compressed"` against
the resolved name, raising on non-string names); otherwise a `groupID`
equal to `18` becomes a `Mineral`; all other records yield nothing.  The
source's `type_lookup` assignment is a dead store (never read) and is not
modelled. -/
def classify (ogids : List JVal) (t : Obj) : PyM (Option (Ore ⊕ Mineral)) :=
  match subscr t "_key" with
  | .error e => .error e
  | .ok typeID =>
      let groupID := objGetD t "groupID" .jnull
      let name := get_name t
      let volume := objGetD t "volume" (.jnum 0)
      let published := objGetD t "published" (.jbool false)
      if pyTruthy published then
        if isHashable groupID then
          if smem ogids groupID then
            match name with
            | .jstr s =>
                .ok (some (.inl ⟨typeID, s, volume, groupID, containsSub (lowerStr s) "compressed"⟩))
            | _ => .error .typeError
          else if pyEqS groupID (.jnum 18) then .ok (some (.inr ⟨typeID, name, volume⟩))
          else .ok none
        else .error .typeError
      else .ok none

/-- Embeds the `for t in types` loop of the ore pipeline, producing the ore
and mineral lists in encounter order. -/
def extract_om (ogids : List JVal) : List JVal → PyM (List Ore × List Mineral)
  | [] => .ok ([], [])
  | tv :: ts =>
      match asObj tv with
      | .error e => .error e
      | .ok t =>
          match classify ogids t with
          | .error e => .error e
          | .ok r =>
              match extract_om ogids ts with
              | .error e => .error e
              | .ok rest =>
                  match r with
                  | some (.inl o) => .ok (o :: rest.1, rest.2)
                  | some (.inr m) => .ok (rest.1, m :: rest.2)
                  | none => .ok rest

/-- Embeds a set comprehension over typeIDs
(`{o['typeID'] for o in ores}`): each id must be hashable. -/
def ids_of (acc : List JVal) : List JVal → PyM (List JVal)
  | [] => .ok acc
  | v :: vs =>
      if isHashable v then ids_of (sadd acc v) vs
      else .error .typeError

/-- Embeds the yield-list comprehension for one materials record: keeps
`{mineralID, quantity}` for exactly the entries whose `materialTypeID` is a
known mineral id, verbatim and in order (duplicates are not merged). -/
def yields_loop (minIds : List JVal) : List JVal → PyM (List Yield)
  | [] => .ok []
  | mv :: ms =>
      match asObj mv with
      | .error e => .error e
      | .ok m =>
          match subscr m "materialTypeID" with
          | .error e => .error e
          | .ok mtid =>
              if isHashable mtid then
                if smem minIds mtid then
                  match subscr m "quantity" with
                  | .error e => .error e
                  | .ok q =>
                      match yields_loop minIds ms with
                      | .error e => .error e
                      | .ok rest => .ok (⟨mtid, q⟩ :: rest)
                else yields_loop minIds ms
              else .error .typeError

/-- Embeds the reprocessing-map loop: records whose `_key` is not an
extracted ore id are skipped; for ore records the filtered yield list is
computed and, only when non-empty, assigned under the key `str(type_id)`
(overwriting any earlier entry for that key in place).  The `materials`
field defaults to `[]` and must be a list to iterate. -/
def build_reprocessing (oreIds minIds : List JVal) (acc : List (String × List Yield)) :
    List JVal → PyM (List (String × List Yield))
  | [] => .ok acc
  | mv :: ms =>
      match asObj mv with
      | .error e => .error e
      | .ok mt =>
          match subscr mt "_key" with
          | .error e => .error e
          | .ok tid =>
              if isHashable tid then
                if smem oreIds tid then
                  match asArr (objGetD mt "materials" (.jarr [])) with
                  | .error e => .error e
                  | .ok marr =>
                      match yields_loop minIds marr with
                      | .error e => .error e
                      | .ok ys =>
                          if ys.isEmpty then build_reprocessing oreIds minIds acc ms
                          else build_reprocessing oreIds minIds (dinsertS acc (pyStr tid) ys) ms
                else build_reprocessing oreIds minIds acc ms
              else .error .typeError

/-- Boolean order on ores by the key `(compressed, name)` exactly as
CPython compares the tuples: `False` before `True`, then the name. -/
def oreLeB (a b : Ore) : Bool :=
  (!a.compressed && b.compressed) || ((a.compressed == b.compressed) && strLeB a.name b.name)

/-- The ore sort relation. -/
def oreRel : Ore → Ore → Prop := fun a b => oreLeB a b = true

instance : DecidableRel oreRel := fun _ _ => instDecidableEqBool _ _

instance : IsTotal Ore oreRel := by
  constructor
  intro a b
  simp only [oreRel, oreLeB]
  cases ha : a.compressed <;> cases hb : b.compressed <;>
    simp <;> exact strLeB_total _ _

instance : IsTrans Ore oreRel := by
  constructor
  intro a b c h1 h2
  simp only [oreRel, oreLeB] at h1 h2 ⊢
  cases ha : a.compressed <;> cases hb : b.compressed <;> cases hc : c.compressed <;>
    simp_all <;> exact strLeB_trans h1 h2

/-- Embeds `main` of `extract_ore_data.py` from the three decoded record
lists to the written artifact (`ores.sort` and `minerals.sort` run after
the reprocessing map is built; the sample printing after the write cannot
affect the output). -/
def ores_main (groups types mats : List JVal) : PyM OresOutput :=
  match ore_group_ids [] groups with
  | .error e => .error e
  | .ok ogids =>
      match extract_om ogids types with
      | .error e => .error e
      | .ok om =>
          match ids_of [] (om.1.map (fun o => o.typeID)) with
          | .error e => .error e
          | .ok oreIds =>
              match ids_of [] (om.2.map (fun m => m.typeID)) with
              | .error e => .error e
              | .ok minIds =>
                  match build_reprocessing oreIds minIds [] mats with
                  | .error e => .error e
                  | .ok rp =>
                      match sortPyList (fun m => m.name) om.2 with
                      | .error e => .error e
                      | .ok minerals =>
                          .ok ⟨⟨"EVE Online SDE", (List.insertionSort oreRel om.1).length,
                                minerals.length, rp.length⟩,
                              List.insertionSort oreRel om.1, minerals, rp⟩

theorem get_name_missing_name {r : Obj} {k : JVal} (hn : objGet r "name" = none)
    (hk : objGet r "_key" = some k) :
    get_name r = .jstr ("Unknown_" ++ pyStr k) := by
  unfold get_name objGetD
  rw [hn, hk]
  rfl

theorem get_name_en {r : Obj} {nf : Obj} {v : JVal}
    (hn : objGet r "name" = some (.jobj nf)) (he : objGet nf "en" = some v) :
    get_name r = v := by
  unfold get_name objGetD
  rw [hn]
  simp only [Option.getD_some]
  rw [he]

theorem get_name_nondict {r : Obj} {v : JVal} (hn : objGet r "name" = some v)
    (hv : ∀ fs, v ≠ .jobj fs) : get_name r = .jstr (pyStr v) := by
  unfold get_name objGetD
  rw [hn]
  simp only [Option.getD_some]

/-- Claim C2: name resolution is total — `get_name` is a total function on
records by construction, raising nothing — and on every record it returns:
the fallback string `"Unknown_<key>"` built from the record's `_key` when
the `name` field is absent; the value stored under `en` when `name` is a
mapping containing that key; and the `str()` coercion of the `name` value
when it is not a mapping. -/
theorem claim_C2_resolve_name_total :
    (∀ (r : Obj) (k : JVal), objGet r "name" = none → objGet r "_key" = some k →
      get_name r = .jstr ("Unknown_" ++ pyStr k)) ∧
    (∀ (r nf : Obj) (v : JVal), objGet r "name" = some (.jobj nf) →
      objGet nf "en" = some v → get_name r = v) ∧
    (∀ (r : Obj) (v : JVal), objGet r "name" = some v → (∀ fs, v ≠ .jobj fs) →
      get_name r = .jstr (pyStr v)) :=
  ⟨fun _ _ hn hk => get_name_missing_name hn hk,
   fun _ _ _ hn he => get_name_en hn he,
   fun _ _ hn hv => get_name_nondict hn hv⟩

/-- Witness for C2 at concrete records: a record without a `name` resolves
to `"Unknown_7"`, `{name: {en: "Foo"}}` to `"Foo"`, and `{name: "Bar"}` to
`"Bar"`. -/
theorem claim_C2_witness :
    get_name [("_key", .jnum 7)] = .jstr ("Unknown_" ++ pyStr (.jnum 7)) ∧
    get_name [("name", .jobj [("en", .jstr "Foo")])] = .jstr "Foo" ∧
    get_name [("name", .jstr "Bar")] = .jstr (pyStr (.jstr "Bar")) :=
  ⟨claim_C2_resolve_name_total.1 [("_key", .jnum 7)] (.jnum 7) rfl rfl,
   claim_C2_resolve_name_total.2.1 [("name", .jobj [("en", .jstr "Foo")])]
     [("en", .jstr "Foo")] (.jstr "Foo") rfl rfl,
   claim_C2_resolve_name_total.2.2 [("name", .jstr "Bar")] (.jstr "Bar") rfl
     (fun _ h => JVal.noConfusion h)⟩

theorem load_jsonl_ok_forall2 {ε α : Type} (loads : String → Except ε α)
    (lines : List String) (vs : List α) (h : load_jsonl loads lines = .ok vs) :
    List.Forall₂ (fun l v => loads (pyStrip l) = .ok v)
      (lines.filter (fun l => !(pyStrip l == ""))) vs := by
  induction lines generalizing vs with
  | nil =>
      simp only [load_jsonl] at h
      cases h
      simp
  | cons l ls ih =>
      simp only [load_jsonl] at h
      by_cases hb : pyStrip l == ""
      · rw [if_pos hb] at h
        simpa [List.filter_cons, hb] using ih vs h
      · rw [if_neg hb] at h
        cases hl : loads (pyStrip l) with
        | error e => rw [hl] at h; cases h
        | ok v =>
            rw [hl] at h
            cases hr : load_jsonl loads ls with
            | error e => rw [hr] at h; cases h
            | ok rest =>
                rw [hr] at h
                cases h
                simp only [List.filter_cons, hb, Bool.not_false, if_true]
                exact List.Forall₂.cons hl (ih rest hr)

theorem load_jsonl_error_iff {ε α : Type} (loads : String → Except ε α)
    (lines : List String) :
    (load_jsonl loads lines).isOk = false ↔
      ∃ l ∈ lines, ¬ (pyStrip l = "") ∧ (loads (pyStrip l)).isOk = false := by
  induction lines with
  | nil => simp [load_jsonl, Except.isOk, Except.toBool]
  | cons l ls ih =>
      simp only [load_jsonl]
      by_cases hb : pyStrip l == ""
      · rw [if_pos hb]
        rw [ih]
        constructor
        · rintro ⟨x, hx, hxs⟩
          exact ⟨x, List.mem_cons_of_mem _ hx, hxs⟩
        · rintro ⟨x, hx, hxs⟩
          rcases List.mem_cons.mp hx with he | hm
          · exact absurd (he ▸ hxs.1) (by simpa using hb)
          · exact ⟨x, hm, hxs⟩
      · rw [if_neg hb]
        cases hl : loads (pyStrip l) with
        | error e =>
            constructor
            · intro _
              exact ⟨l, List.mem_cons_self _ _, by simpa using hb, by rw [hl]; rfl⟩
            · intro _
              rfl
        | ok v =>
            cases hr : load_jsonl loads ls with
            | error e =>
                constructor
                · intro _
                  rcases ih.mp (by rw [hr]; rfl) with ⟨x, hx, hxs⟩
                  exact ⟨x, List.mem_cons_of_mem _ hx, hxs⟩
                · intro _
                  rfl
            | ok rest =>
                constructor
                · intro hfalse
                  exact absurd hfalse (by simp [Except.isOk, Except.toBool])
                · rintro ⟨x, hx, hxs⟩
                  rcases List.mem_cons.mp hx with he | hm
                  · rw [he, hl] at hxs
                    exact absurd hxs.2 (by simp [Except.isOk, Except.toBool])
                  · have h2 := ih.mpr ⟨x, hm, hxs⟩
                    rw [hr] at h2
                    exact absurd h2 (by simp [Except.isOk, Except.toBool])

/-- Claim C7: `load_jsonl` returns, in file order, the decoded objects of
exactly the non-blank (whitespace-only stripped to empty) lines — one per
non-blank line — and it fails (producing nothing) exactly when some
non-blank line fails to decode. -/
theorem claim_C7_load_jsonl_lines :
    (∀ (ε α : Type) (loads : String → Except ε α) (lines : List String) (vs : List α),
      load_jsonl loads lines = .ok vs →
      List.Forall₂ (fun l v => loads (pyStrip l) = .ok v)
        (lines.filter (fun l => !(pyStrip l == ""))) vs) ∧
    (∀ (ε α : Type) (loads : String → Except ε α) (lines : List String),
      (load_jsonl loads lines).isOk = false ↔
        ∃ l ∈ lines, ¬ (pyStrip l = "") ∧ (loads (pyStrip l)).isOk = false) :=
  ⟨fun _ _ loads lines vs h => load_jsonl_ok_forall2 loads lines vs h,
   fun _ _ loads lines => load_jsonl_error_iff loads lines⟩

/-- Concrete decoder used by the C7 witness. -/
def c7loads : String → Except Nat String :=
  fun s => if s == "a" ∨ s == "b" then .ok s else .error 0

/-- Witness for C7 on a concrete decoder and line list: two decodable lines
around a blank line load to exactly their two decoded objects in order, and
a file with a malformed non-blank line is rejected. -/
theorem claim_C7_witness :
    List.Forall₂ (fun l v => c7loads (pyStrip l) = .ok v)
      (["a", "   ", " b "].filter (fun l => !(pyStrip l == ""))) ["a", "b"] ∧
    ((load_jsonl c7loads ["a", "bad"]).isOk = false ↔
      ∃ l ∈ ["a", "bad"], ¬ (pyStrip l = "") ∧ (c7loads (pyStrip l)).isOk = false) :=
  ⟨claim_C7_load_jsonl_lines.1 Nat String c7loads ["a", "   ", " b "] ["a", "b"] rfl,
   claim_C7_load_jsonl_lines.2 Nat String c7loads ["a", "bad"]⟩

theorem pyEqS_symm {a b : JVal} (h : pyEqS a b = true) : pyEqS b a = true := by
  cases a <;> cases b <;> simp_all [pyEqS]

theorem pyStr_congr {a b : JVal} (h : pyEqS a b = true) : pyStr a = pyStr b := by
  cases a <;> cases b <;> simp_all [pyEqS, pyStr]

theorem pyEqS_refl {k : JVal} (h : isHashable k = true) : pyEqS k k = true := by
  cases k <;> simp_all [pyEqS, isHashable]

theorem dinsert_mem {d : List (JVal × α)} {k0 : JVal} {v0 : α} {k : JVal} {v : α}
    (h : (k, v) ∈ dinsert d k0 v0) : (k, v) ∈ d ∨ v = v0 := by
  unfold dinsert at h
  by_cases hc : d.any (fun p => pyEqS p.1 k0)
  · rw [if_pos hc] at h
    rcases List.mem_map.mp h with ⟨p, hp, he⟩
    by_cases hpk : pyEqS p.1 k0
    · rw [if_pos hpk] at he
      cases he
      exact Or.inr rfl
    · rw [if_neg hpk] at he
      exact Or.inl (he ▸ hp)
  · rw [if_neg hc] at h
    rcases List.mem_append.mp h with hm | hm
    · exact Or.inl hm
    · right
      cases List.mem_singleton.mp hm
      rfl

theorem dget_mem {d : List (JVal × α)} {k : JVal} {v : α} (h : dget d k = some v) :
    ∃ k0, (k0, v) ∈ d := by
  unfold dget at h
  cases hf : d.find? (fun p => pyEqS p.1 k) with
  | none => rw [hf] at h; cases h
  | some p =>
      rw [hf] at h
      cases h
      exact ⟨p.1, by simpa using List.mem_of_find?_eq_some hf⟩

theorem smem_exists {s : List JVal} {k : JVal} (h : smem s k = true) :
    ∃ x ∈ s, pyEqS x k = true := by
  simpa [smem] using h

theorem sadd_mem {s : List JVal} {k x : JVal} (h : x ∈ sadd s k) : x ∈ s ∨ x = k := by
  unfold sadd at h
  by_cases hc : s.any (fun y => pyEqS y k)
  · rw [if_pos hc] at h
    exact Or.inl h
  · rw [if_neg hc] at h
    rcases List.mem_append.mp h with hm | hm
    · exact Or.inl hm
    · exact Or.inr (List.mem_singleton.mp hm)

theorem ids_of_mem {acc vs ids : List JVal} (h : ids_of acc vs = .ok ids) :
    ∀ x ∈ ids, x ∈ acc ∨ x ∈ vs := by
  induction vs generalizing acc with
  | nil =>
      simp only [ids_of] at h
      cases h
      intro x hx
      exact Or.inl hx
  | cons v vs ih =>
      simp only [ids_of] at h
      by_cases hh : isHashable v
      · rw [if_pos hh] at h
        intro x hx
        rcases ih h x hx with hm | hm
        · rcases sadd_mem hm with hs | hs
          · exact Or.inl hs
          · exact Or.inr (hs ▸ List.mem_cons_self _ _)
        · exact Or.inr (List.mem_cons_of_mem _ hm)
      · rw [if_neg hh] at h
        cases h

theorem emit_item_some_elim {gl : List (JVal × GroupInfo)} {t : Obj} {it : Item}
    (h : emit_item gl t = .ok (some it)) :
    pyTruthy (objGetD t "published" (.jbool false)) = true ∧
    isHashable (objGetD t "groupID" .jnull) = true ∧
    ∃ typeID, subscr t "_key" = .ok typeID ∧
      it = ⟨typeID, get_name t, objGetD t "volume" (.jnum 0), objGetD t "groupID" .jnull,
        ((dget gl (objGetD t "groupID" .jnull)).getD unknownGroup).name,
        ((dget gl (objGetD t "groupID" .jnull)).getD unknownGroup).categoryID,
        ((dget gl (objGetD t "groupID" .jnull)).getD unknownGroup).categoryName⟩ := by
  unfold emit_item at h
  cases hk : subscr t "_key" with
  | error e => rw [hk] at h; cases h
  | ok typeID =>
      rw [hk] at h
      simp only at h
      by_cases hp : pyTruthy (objGetD t "published" (.jbool false))
      · rw [if_pos hp] at h
        by_cases hh : isHashable (objGetD t "groupID" .jnull)
        · rw [if_pos hh] at h
          cases h
          exact ⟨hp, hh, typeID, rfl, rfl⟩
        · rw [if_neg hh] at h
          cases h
      · rw [if_neg hp] at h
        cases h

theorem emit_item_some_intro {gl : List (JVal × GroupInfo)} {t : Obj} {typeID : JVal}
    (hk : subscr t "_key" = .ok typeID)
    (hp : pyTruthy (objGetD t "published" (.jbool false)) = true)
    (hh : isHashable (objGetD t "groupID" .jnull) = true) :
    emit_item gl t = .ok (some
      ⟨typeID, get_name t, objGetD t "volume" (.jnum 0), objGetD t "groupID" .jnull,
        ((dget gl (objGetD t "groupID" .jnull)).getD unknownGroup).name,
        ((dget gl (objGetD t "groupID" .jnull)).getD unknownGroup).categoryID,
        ((dget gl (objGetD t "groupID" .jnull)).getD unknownGroup).categoryName⟩) := by
  unfold emit_item
  rw [hk]
  simp only [hp, if_true, hh]

theorem extract_items_mem_src {gl : List (JVal × GroupInfo)} {ts : List JVal}
    {l : List Item} (h : extract_items gl ts = .ok l) :
    ∀ it ∈ l, ∃ tv ∈ ts, ∃ t, asObj tv = .ok t ∧ emit_item gl t = .ok (some it) := by
  induction ts generalizing l with
  | nil =>
      simp only [extract_items] at h
      cases h
      intro it hit
      cases hit
  | cons tv ts ih =>
      simp only [extract_items] at h
      cases ho : asObj tv with
      | error e => rw [ho] at h; cases h
      | ok t =>
          rw [ho] at h
          dsimp only at h
          cases he : emit_item gl t with
          | error e => rw [he] at h; cases h
          | ok r =>
              rw [he] at h
              dsimp only at h
              cases hr : extract_items gl ts with
              | error e => rw [hr] at h; cases h
              | ok rest =>
                  rw [hr] at h
                  dsimp only at h
                  cases r with
                  | some it0 =>
                      simp only at h
                      cases h
                      intro it hit
                      rcases List.mem_cons.mp hit with heq | hm
                      · exact ⟨tv, List.mem_cons_self _ _, t, ho, heq ▸ he⟩
                      · rcases ih hr it hm with ⟨tv2, htv2, t2, ht2, he2⟩
                        exact ⟨tv2, List.mem_cons_of_mem _ htv2, t2, ht2, he2⟩
                  | none =>
                      simp only at h
                      cases h
                      intro it hit
                      rcases ih hr it hit with ⟨tv2, htv2, t2, ht2, he2⟩
                      exact ⟨tv2, List.mem_cons_of_mem _ htv2, t2, ht2, he2⟩

theorem extract_items_src_mem {gl : List (JVal × GroupInfo)} {ts : List JVal}
    {l : List Item} (h : extract_items gl ts = .ok l) :
    ∀ tv ∈ ts, ∀ t it, asObj tv = .ok t → emit_item gl t = .ok (some it) → it ∈ l := by
  induction ts generalizing l with
  | nil =>
      intro tv htv
      cases htv
  | cons tv0 ts ih =>
      simp only [extract_items] at h
      cases ho : asObj tv0 with
      | error e => rw [ho] at h; cases h
      | ok t0 =>
          rw [ho] at h
          dsimp only at h
          cases he : emit_item gl t0 with
          | error e => rw [he] at h; cases h
          | ok r =>
              rw [he] at h
              dsimp only at h
              cases hr : extract_items gl ts with
              | error e => rw [hr] at h; cases h
              | ok rest =>
                  rw [hr] at h
                  dsimp only at h
                  intro tv htv t it hto hte
                  rcases List.mem_cons.mp htv with heq | hm
                  · subst heq
                    rw [ho] at hto
                    cases hto
                    rw [he] at hte
                    cases hte
                    dsimp only at h
                    cases h
                    exact List.mem_cons_self _ _
                  · have hmem := ih hr tv hm t it hto hte
                    cases r with
                    | some it0 =>
                        simp only at h
                        cases h
                        exact List.mem_cons_of_mem _ hmem
                    | none =>
                        simp only at h
                        cases h
                        exact hmem

theorem category_lookup_val {acc cl : List (JVal × JVal)} {cs : List JVal}
    (h : category_lookup acc cs = .ok cl) :
    ∀ k v, (k, v) ∈ cl → (k, v) ∈ acc ∨
      ∃ cv ∈ cs, ∃ cf, asObj cv = .ok cf ∧ v = get_name cf := by
  induction cs generalizing acc with
  | nil =>
      simp only [category_lookup] at h
      cases h
      intro k v hm
      exact Or.inl hm
  | cons cv cs ih =>
      simp only [category_lookup] at h
      cases ho : asObj cv with
      | error e => rw [ho] at h; cases h
      | ok cf =>
          rw [ho] at h
          dsimp only at h
          cases hk : subscr cf "_key" with
          | error e => rw [hk] at h; cases h
          | ok k0 =>
              rw [hk] at h
              dsimp only at h
              by_cases hh : isHashable k0
              · rw [if_pos hh] at h
                intro k v hm
                rcases ih h k v hm with hacc | ⟨cv2, hcv2, cf2, hcf2, hv2⟩
                · rcases dinsert_mem hacc with hacc2 | hval
                  · exact Or.inl hacc2
                  · exact Or.inr ⟨cv, List.mem_cons_self _ _, cf, ho, hval⟩
                · exact Or.inr ⟨cv2, List.mem_cons_of_mem _ hcv2, cf2, hcf2, hv2⟩
              · rw [if_neg hh] at h
                cases h

theorem group_lookup_val {cl0 : List (JVal × JVal)} {acc gl : List (JVal × GroupInfo)}
    {gs : List JVal} (h : group_lookup cl0 acc gs = .ok gl) :
    ∀ k gi, (k, gi) ∈ gl → (k, gi) ∈ acc ∨
      ∃ gv ∈ gs, ∃ gf, asObj gv = .ok gf ∧
        gi = ⟨get_name gf, objGetD gf "categoryID" .jnull,
          (dget cl0 (objGetD gf "categoryID" .jnull)).getD (.jstr "Unknown")⟩ := by
  induction gs generalizing acc with
  | nil =>
      simp only [group_lookup] at h
      cases h
      intro k gi hm
      exact Or.inl hm
  | cons gv gs ih =>
      simp only [group_lookup] at h
      cases ho : asObj gv with
      | error e => rw [ho] at h; cases h
      | ok gf =>
          rw [ho] at h
          dsimp only at h
          cases hk : subscr gf "_key" with
          | error e => rw [hk] at h; cases h
          | ok k0 =>
              rw [hk] at h
              dsimp only at h
              by_cases hc : isHashable (objGetD gf "categoryID" .jnull)
              · rw [if_pos hc] at h
                by_cases hh : isHashable k0
                · rw [if_pos hh] at h
                  intro k gi hm
                  rcases ih h k gi hm with hacc | ⟨gv2, hgv2, gf2, hgf2, hv2⟩
                  · rcases dinsert_mem hacc with hacc2 | hval
                    · exact Or.inl hacc2
                    · exact Or.inr ⟨gv, List.mem_cons_self _ _, gf, ho, hval⟩
                  · exact Or.inr ⟨gv2, List.mem_cons_of_mem _ hgv2, gf2, hgf2, hv2⟩
                · rw [if_neg hh] at h
                  cases h
              · rw [if_neg hc] at h
                cases h

theorem sortPyList_mem {key : α → JVal} {l l' : List α} (h : sortPyList key l = .ok l') :
    ∀ x ∈ l', x ∈ l := by
  unfold sortPyList at h
  by_cases h1 : l.length ≤ 1
  · rw [if_pos h1] at h
    cases h
    intro x hx
    exact hx
  · rw [if_neg h1] at h
    by_cases h2 : l.all (fun x => (jstrOf (key x)).isSome)
    · rw [if_pos h2] at h
      cases h
      intro x hx
      exact (List.mem_insertionSort _).mp hx
    · rw [if_neg h2] at h
      by_cases h3 : l.all (fun x => (pyToRat (key x)).isSome)
      · rw [if_pos h3] at h
        cases h
        intro x hx
        exact (List.mem_insertionSort _).mp hx
      · rw [if_neg h3] at h
        cases h

theorem items_main_elim {categories groups types : List JVal} {out : ItemsOutput}
    (h : items_main categories groups types = .ok out) :
    ∃ cl gl raw st, category_lookup [] categories = .ok cl ∧
      group_lookup cl [] groups = .ok gl ∧
      extract_items gl types = .ok raw ∧
      sortPyList (fun it => it.name) raw = .ok out.items ∧
      stats_loop [] 0 out.items = .ok st ∧
      out.metadata = ⟨"EVE Online SDE", out.items.length, st.1.length, st.2, st.1⟩ := by
  unfold items_main at h
  cases h1 : category_lookup [] categories with
  | error e => rw [h1] at h; cases h
  | ok cl =>
      rw [h1] at h
      dsimp only at h
      cases h2 : group_lookup cl [] groups with
      | error e => rw [h2] at h; cases h
      | ok gl =>
          rw [h2] at h
          dsimp only at h
          cases h3 : extract_items gl types with
          | error e => rw [h3] at h; cases h
          | ok raw =>
              rw [h3] at h
              dsimp only at h
              cases h4 : sortPyList (fun it => it.name) raw with
              | error e => rw [h4] at h; cases h
              | ok items =>
                  rw [h4] at h
                  dsimp only at h
                  cases h5 : stats_loop [] 0 items with
                  | error e => rw [h5] at h; cases h
                  | ok st =>
                      rw [h5] at h
                      dsimp only at h
                      cases h
                      exact ⟨cl, gl, raw, st, rfl, h2, h3, h4, h5, rfl⟩

/-- Category records of the running concrete example (the spec's example
scenario). -/
def exCats : List JVal :=
  [.jobj [("_key", .jnum 25), ("name", .jobj [("en", .jstr "Asteroid")])]]

/-- Group records of the running concrete example. -/
def exGroups : List JVal :=
  [.jobj [("_key", .jnum 450), ("categoryID", .jnum 25), ("name", .jobj [("en", .jstr "Veldspar")])],
   .jobj [("_key", .jnum 18), ("categoryID", .jnum 4), ("name", .jobj [("en", .jstr "Mineral")])]]

/-- Type records of the running concrete example. -/
def exTypes : List JVal :=
  [.jobj [("_key", .jnum 1230), ("groupID", .jnum 450), ("name", .jobj [("en", .jstr "Veldspar")]),
          ("volume", .jnum 1), ("published", .jbool true)],
   .jobj [("_key", .jnum 34), ("groupID", .jnum 18), ("name", .jobj [("en", .jstr "Tritanium")]),
          ("volume", .jnum 2), ("published", .jbool true)]]

/-- Materials records of the running concrete example. -/
def exMats : List JVal :=
  [.jobj [("_key", .jnum 1230),
          ("materials", .jarr [.jobj [("materialTypeID", .jnum 34), ("quantity", .jnum 415)]])]]

/-- The Tritanium item produced by the item pipeline on the example. -/
def exItemTri : Item :=
  ⟨.jnum 34, .jstr "Tritanium", .jnum 2, .jnum 18, .jstr "Mineral", .jnum 4, .jstr "Unknown"⟩

/-- The Veldspar item produced by the item pipeline on the example. -/
def exItemVeld : Item :=
  ⟨.jnum 1230, .jstr "Veldspar", .jnum 1, .jnum 450, .jstr "Veldspar", .jnum 25, .jstr "Asteroid"⟩

/-- The item pipeline's whole output on the example. -/
def exItemsOut : ItemsOutput :=
  ⟨⟨"EVE Online SDE", 2, 2, 0, [(.jstr "Unknown", 1), (.jstr "Asteroid", 1)]⟩,
   [exItemTri, exItemVeld]⟩

/-- Evaluation fact: the item pipeline on the example scenario produces
`exItemsOut` (Tritanium sorts before Veldspar). -/
theorem exItems_eval : items_main exCats exGroups exTypes = .ok exItemsOut := rfl

/-- Claim C4, corrected: on every produced item the `groupName` and
`categoryName` fields are always present, each being either the resolved
name of a matching group/category record or the literal `"Unknown"` when
the id misses the lookup.  (They need not be non-null strings: name
resolution returns whatever sits under `en`, so a source record
`{name: {en: null}}` propagates `null` — see the counterexample.) -/
theorem claim_C4_amended {categories groups types : List JVal} {out : ItemsOutput}
    (h : items_main categories groups types = .ok out) :
    ∀ it ∈ out.items,
      (it.groupName = .jstr "Unknown" ∨
        ∃ gv ∈ groups, ∃ gf, asObj gv = .ok gf ∧ it.groupName = get_name gf) ∧
      (it.categoryName = .jstr "Unknown" ∨
        ∃ cv ∈ categories, ∃ cf, asObj cv = .ok cf ∧ it.categoryName = get_name cf) := by
  rcases items_main_elim h with ⟨cl, gl, raw, st, h1, h2, h3, h4, h5, h6⟩
  intro it hit
  have hraw : it ∈ raw := sortPyList_mem h4 it hit
  rcases extract_items_mem_src h3 it hraw with ⟨tv, htv, t, hto, hte⟩
  rcases emit_item_some_elim hte with ⟨hp, hh, typeID, hk, hitEq⟩
  subst hitEq
  constructor
  · cases hd : dget gl (objGetD t "groupID" .jnull) with
    | none => simp [hd, unknownGroup]
    | some gi0 =>
        rcases dget_mem hd with ⟨k0, hk0⟩
        rcases group_lookup_val h2 k0 gi0 hk0 with habs | ⟨gv, hgv, gf, hgf, hgi⟩
        · cases habs
        · right
          exact ⟨gv, hgv, gf, hgf, by simp [hd, hgi]⟩
  · cases hd : dget gl (objGetD t "groupID" .jnull) with
    | none => simp [hd, unknownGroup]
    | some gi0 =>
        rcases dget_mem hd with ⟨k0, hk0⟩
        rcases group_lookup_val h2 k0 gi0 hk0 with habs | ⟨gv, hgv, gf, hgf, hgi⟩
        · cases habs
        · cases hc : dget cl (objGetD gf "categoryID" .jnull) with
          | none => simp [hd, hgi, hc]
          | some v =>
              rcases dget_mem hc with ⟨k1, hk1⟩
              rcases category_lookup_val h1 k1 v hk1 with habs | ⟨cv, hcv, cf, hcf, hv⟩
              · cases habs
              · right
                exact ⟨cv, hcv, cf, hcf, by simp [hd, hgi, hc, hv]⟩

/-- Witness for (the amended) C4 at the example scenario, instantiated at
the Tritanium item: its `groupName` is the resolved name of the group-18
record and its `categoryName` is the literal `"Unknown"`. -/
theorem claim_C4_witness :
    (exItemTri.groupName = .jstr "Unknown" ∨
      ∃ gv ∈ exGroups, ∃ gf, asObj gv = .ok gf ∧ exItemTri.groupName = get_name gf) ∧
    (exItemTri.categoryName = .jstr "Unknown" ∨
      ∃ cv ∈ exCats, ∃ cf, asObj cv = .ok cf ∧ exItemTri.categoryName = get_name cf) :=
  claim_C4_amended exItems_eval exItemTri (List.Mem.head _)

/-- Group record whose `name.en` is JSON `null`, for the C4
counterexample. -/
def c4group : JVal := .jobj [("_key", .jnum 450), ("name", .jobj [("en", .jnull)])]

/-- Type record joined against `c4group`. -/
def c4type : JVal :=
  .jobj [("_key", .jnum 1), ("groupID", .jnum 450), ("name", .jobj [("en", .jstr "A")]),
         ("published", .jbool true)]

/-- Counterexample to C4 as stated: with a group record `{name: {en: null}}`
the pipeline succeeds and emits an item whose `groupName` is `null` — not a
non-null string as the claim asserts. -/
theorem claim_C4_counterexample :
    items_main [] [c4group] [c4type] =
      .ok ⟨⟨"EVE Online SDE", 1, 1, 1, [(.jstr "Unknown", 1)]⟩,
        [⟨.jnum 1, .jstr "A", .jnum 0, .jnum 450, .jnull, .jnull, .jstr "Unknown"⟩]⟩ ∧
    (⟨.jnum 1, .jstr "A", .jnum 0, .jnum 450, .jnull, .jnull, .jstr "Unknown"⟩ : Item).groupName
      = .jnull :=
  ⟨rfl, rfl⟩

theorem ores_main_elim {groups types mats : List JVal} {out : OresOutput}
    (h : ores_main groups types mats = .ok out) :
    ∃ ogids om oreIds minIds, ore_group_ids [] groups = .ok ogids ∧
      extract_om ogids types = .ok om ∧
      ids_of [] (om.1.map (fun o => o.typeID)) = .ok oreIds ∧
      ids_of [] (om.2.map (fun m => m.typeID)) = .ok minIds ∧
      build_reprocessing oreIds minIds [] mats = .ok out.reprocessing ∧
      sortPyList (fun m => m.name) om.2 = .ok out.minerals ∧
      out.ores = List.insertionSort oreRel om.1 ∧
      out.metadata = ⟨"EVE Online SDE", out.ores.length, out.minerals.length,
        out.reprocessing.length⟩ := by
  unfold ores_main at h
  cases h1 : ore_group_ids [] groups with
  | error e => rw [h1] at h; cases h
  | ok ogids =>
      rw [h1] at h
      dsimp only at h
      cases h2 : extract_om ogids types with
      | error e => rw [h2] at h; cases h
      | ok om =>
          rw [h2] at h
          dsimp only at h
          cases h3 : ids_of [] (om.1.map (fun o => o.typeID)) with
          | error e => rw [h3] at h; cases h
          | ok oreIds =>
              rw [h3] at h
              dsimp only at h
              cases h4 : ids_of [] (om.2.map (fun m => m.typeID)) with
              | error e => rw [h4] at h; cases h
              | ok minIds =>
                  rw [h4] at h
                  dsimp only at h
                  cases h5 : build_reprocessing oreIds minIds [] mats with
                  | error e => rw [h5] at h; cases h
                  | ok rp =>
                      rw [h5] at h
                      dsimp only at h
                      cases h6 : sortPyList (fun m => m.name) om.2 with
                      | error e => rw [h6] at h; cases h
                      | ok minerals =>
                          rw [h6] at h
                          dsimp only at h
                          cases h
                          exact ⟨ogids, om, oreIds, minIds, rfl, h2, h3, h4, h5, h6, rfl, rfl⟩

theorem classify_inl_elim {ogids : List JVal} {t : Obj} {o : Ore}
    (h : classify ogids t = .ok (some (.inl o))) :
    pyTruthy (objGetD t "published" (.jbool false)) = true ∧
    isHashable (objGetD t "groupID" .jnull) = true ∧
    smem ogids (objGetD t "groupID" .jnull) = true ∧
    get_name t = .jstr o.name ∧
    subscr t "_key" = .ok o.typeID ∧
    o = ⟨o.typeID, o.name, objGetD t "volume" (.jnum 0), objGetD t "groupID" .jnull,
      containsSub (lowerStr o.name) "compressed"⟩ := by
  unfold classify at h
  cases hk : subscr t "_key" with
  | error e => rw [hk] at h; cases h
  | ok typeID =>
      rw [hk] at h
      dsimp only at h
      by_cases hp : pyTruthy (objGetD t "published" (.jbool false))
      · rw [if_pos hp] at h
        by_cases hh : isHashable (objGetD t "groupID" .jnull)
        · rw [if_pos hh] at h
          by_cases hs : smem ogids (objGetD t "groupID" .jnull)
          · rw [if_pos hs] at h
            cases hn : get_name t with
            | jstr s =>
                rw [hn] at h
                cases h
                exact ⟨hp, hh, hs, rfl, rfl, rfl⟩
            | jnull => rw [hn] at h; cases h
            | jbool b => rw [hn] at h; cases h
            | jnum q => rw [hn] at h; cases h
            | jarr xs => rw [hn] at h; cases h
            | jobj fs => rw [hn] at h; cases h
          · rw [if_neg hs] at h
            by_cases he : pyEqS (objGetD t "groupID" .jnull) (.jnum 18)
            · rw [if_pos he] at h
              cases h
            · rw [if_neg he] at h
              cases h
        · rw [if_neg hh] at h
          cases h
      · rw [if_neg hp] at h
        cases h

theorem classify_inr_elim {ogids : List JVal} {t : Obj} {m : Mineral}
    (h : classify ogids t = .ok (some (.inr m))) :
    pyTruthy (objGetD t "published" (.jbool false)) = true ∧
    isHashable (objGetD t "groupID" .jnull) = true ∧
    smem ogids (objGetD t "groupID" .jnull) = false ∧
    pyEqS (objGetD t "groupID" .jnull) (.jnum 18) = true ∧
    subscr t "_key" = .ok m.typeID ∧
    m = ⟨m.typeID, get_name t, objGetD t "volume" (.jnum 0)⟩ := by
  unfold classify at h
  cases hk : subscr t "_key" with
  | error e => rw [hk] at h; cases h
  | ok typeID =>
      rw [hk] at h
      dsimp only at h
      by_cases hp : pyTruthy (objGetD t "published" (.jbool false))
      · rw [if_pos hp] at h
        by_cases hh : isHashable (objGetD t "groupID" .jnull)
        · rw [if_pos hh] at h
          by_cases hs : smem ogids (objGetD t "groupID" .jnull)
          · rw [if_pos hs] at h
            cases hn : get_name t with
            | jstr s => rw [hn] at h; cases h
            | jnull => rw [hn] at h; cases h
            | jbool b => rw [hn] at h; cases h
            | jnum q => rw [hn] at h; cases h
            | jarr xs => rw [hn] at h; cases h
            | jobj fs => rw [hn] at h; cases h
          · rw [if_neg hs] at h
            by_cases he : pyEqS (objGetD t "groupID" .jnull) (.jnum 18)
            · rw [if_pos he] at h
              cases h
              exact ⟨hp, hh, by simpa using hs, he, rfl, rfl⟩
            · rw [if_neg he] at h
              cases h
        · rw [if_neg hh] at h
          cases h
      · rw [if_neg hp] at h
        cases h

theorem extract_om_ore_src {ogids : List JVal} {ts : List JVal}
    {om : List Ore × List Mineral} (h : extract_om ogids ts = .ok om) :
    ∀ o ∈ om.1, ∃ tv ∈ ts, ∃ t, asObj tv = .ok t ∧ classify ogids t = .ok (some (.inl o)) := by
  induction ts generalizing om with
  | nil =>
      simp only [extract_om] at h
      cases h
      intro o ho
      cases ho
  | cons tv ts ih =>
      simp only [extract_om] at h
      cases ho : asObj tv with
      | error e => rw [ho] at h; cases h
      | ok t =>
          rw [ho] at h
          dsimp only at h
          cases hc : classify ogids t with
          | error e => rw [hc] at h; cases h
          | ok r =>
              rw [hc] at h
              dsimp only at h
              cases hr : extract_om ogids ts with
              | error e => rw [hr] at h; cases h
              | ok rest =>
                  rw [hr] at h
                  dsimp only at h
                  cases r with
                  | some x =>
                      cases x with
                      | inl o0 =>
                          cases h
                          intro o hom
                          rcases List.mem_cons.mp hom with heq | hm
                          · exact ⟨tv, List.mem_cons_self _ _, t, ho, heq ▸ hc⟩
                          · rcases ih hr o hm with ⟨tv2, htv2, t2, ht2, hc2⟩
                            exact ⟨tv2, List.mem_cons_of_mem _ htv2, t2, ht2, hc2⟩
                      | inr m0 =>
                          cases h
                          intro o hom
                          rcases ih hr o hom with ⟨tv2, htv2, t2, ht2, hc2⟩
                          exact ⟨tv2, List.mem_cons_of_mem _ htv2, t2, ht2, hc2⟩
                  | none =>
                      cases h
                      intro o hom
                      rcases ih hr o hom with ⟨tv2, htv2, t2, ht2, hc2⟩
                      exact ⟨tv2, List.mem_cons_of_mem _ htv2, t2, ht2, hc2⟩

theorem extract_om_min_src {ogids : List JVal} {ts : List JVal}
    {om : List Ore × List Mineral} (h : extract_om ogids ts = .ok om) :
    ∀ m ∈ om.2, ∃ tv ∈ ts, ∃ t, asObj tv = .ok t ∧ classify ogids t = .ok (some (.inr m)) := by
  induction ts generalizing om with
  | nil =>
      simp only [extract_om] at h
      cases h
      intro m hm
      cases hm
  | cons tv ts ih =>
      simp only [extract_om] at h
      cases ho : asObj tv with
      | error e => rw [ho] at h; cases h
      | ok t =>
          rw [ho] at h
          dsimp only at h
          cases hc : classify ogids t with
          | error e => rw [hc] at h; cases h
          | ok r =>
              rw [hc] at h
              dsimp only at h
              cases hr : extract_om ogids ts with
              | error e => rw [hr] at h; cases h
              | ok rest =>
                  rw [hr] at h
                  dsimp only at h
                  cases r with
                  | some x =>
                      cases x with
                      | inl o0 =>
                          cases h
                          intro m hm
                          rcases ih hr m hm with ⟨tv2, htv2, t2, ht2, hc2⟩
                          exact ⟨tv2, List.mem_cons_of_mem _ htv2, t2, ht2, hc2⟩
                      | inr m0 =>
                          cases h
                          intro m hm
                          rcases List.mem_cons.mp hm with heq | hmm
                          · exact ⟨tv, List.mem_cons_self _ _, t, ho, heq ▸ hc⟩
                          · rcases ih hr m hmm with ⟨tv2, htv2, t2, ht2, hc2⟩
                            exact ⟨tv2, List.mem_cons_of_mem _ htv2, t2, ht2, hc2⟩
                  | none =>
                      cases h
                      intro m hm
                      rcases ih hr m hm with ⟨tv2, htv2, t2, ht2, hc2⟩
                      exact ⟨tv2, List.mem_cons_of_mem _ htv2, t2, ht2, hc2⟩

theorem extract_om_src_mem {ogids : List JVal} {ts : List JVal}
    {om : List Ore × List Mineral} (h : extract_om ogids ts = .ok om) :
    ∀ tv ∈ ts, ∀ t r, asObj tv = .ok t → classify ogids t = .ok (some r) →
      (∀ o, r = .inl o → o ∈ om.1) ∧ (∀ m, r = .inr m → m ∈ om.2) := by
  induction ts generalizing om with
  | nil =>
      intro tv htv
      cases htv
  | cons tv0 ts ih =>
      simp only [extract_om] at h
      cases ho : asObj tv0 with
      | error e => rw [ho] at h; cases h
      | ok t0 =>
          rw [ho] at h
          dsimp only at h
          cases hc : classify ogids t0 with
          | error e => rw [hc] at h; cases h
          | ok r0 =>
              rw [hc] at h
              dsimp only at h
              cases hr : extract_om ogids ts with
              | error e => rw [hr] at h; cases h
              | ok rest =>
                  rw [hr] at h
                  dsimp only at h
                  intro tv htv t r hto htc
                  rcases List.mem_cons.mp htv with heq | hm
                  · subst heq
                    rw [ho] at hto
                    cases hto
                    rw [hc] at htc
                    cases htc
                    cases r with
                    | inl o =>
                        dsimp only at h
                        cases h
                        exact ⟨fun o2 ho2 => (by cases ho2; exact List.mem_cons_self _ _),
                               fun m2 hm2 => (by cases hm2)⟩
                    | inr m =>
                        dsimp only at h
                        cases h
                        exact ⟨fun o2 ho2 => (by cases ho2),
                               fun m2 hm2 => (by cases hm2; exact List.mem_cons_self _ _)⟩
                  · have hih := ih hr tv hm t r hto htc
                    cases r0 with
                    | some x =>
                        cases x with
                        | inl o0 =>
                            cases h
                            exact ⟨fun o2 ho2 => List.mem_cons_of_mem _ (hih.1 o2 ho2),
                                   fun m2 hm2 => hih.2 m2 hm2⟩
                        | inr m0 =>
                            cases h
                            exact ⟨fun o2 ho2 => hih.1 o2 ho2,
                                   fun m2 hm2 => List.mem_cons_of_mem _ (hih.2 m2 hm2)⟩
                    | none =>
                        cases h
                        exact hih

/-- The Veldspar ore produced by the ore pipeline on the example. -/
def exOre : Ore := ⟨.jnum 1230, "Veldspar", .jnum 1, .jnum 450, false⟩

/-- The Tritanium mineral produced by the ore pipeline on the example. -/
def exMin : Mineral := ⟨.jnum 34, .jstr "Tritanium", .jnum 2⟩

/-- The ore pipeline's whole output on the example. -/
def exOresOut : OresOutput :=
  ⟨⟨"EVE Online SDE", 1, 1, 1⟩, [exOre], [exMin], [("1230", [⟨.jnum 34, .jnum 415⟩])]⟩

/-- Evaluation fact: the ore pipeline on the example scenario produces
`exOresOut`, exactly the artifact the spec's example scenario promises. -/
theorem exOres_eval : ores_main exGroups exTypes exMats = .ok exOresOut := rfl

/-- Claim C1, corrected: every record of the output `items`, `ores` and
`minerals` sequences stems from a source type record whose `published`
value is truthy (so no record with a falsy or missing `published` flag ever
appears); it need not be the boolean `true` — any truthy value such as a
non-empty string passes the filter, see the counterexample. -/
theorem claim_C1_amended :
    (∀ (categories groups types : List JVal) (out : ItemsOutput),
      items_main categories groups types = .ok out →
      ∀ it ∈ out.items, ∃ cl gl, category_lookup [] categories = .ok cl ∧
        group_lookup cl [] groups = .ok gl ∧
        ∃ tv ∈ types, ∃ t, asObj tv = .ok t ∧ emit_item gl t = .ok (some it) ∧
          pyTruthy (objGetD t "published" (.jbool false)) = true) ∧
    (∀ (groups types mats : List JVal) (out : OresOutput),
      ores_main groups types mats = .ok out →
      (∀ o ∈ out.ores, ∃ ogids, ore_group_ids [] groups = .ok ogids ∧
        ∃ tv ∈ types, ∃ t, asObj tv = .ok t ∧ classify ogids t = .ok (some (.inl o)) ∧
          pyTruthy (objGetD t "published" (.jbool false)) = true) ∧
      (∀ m ∈ out.minerals, ∃ ogids, ore_group_ids [] groups = .ok ogids ∧
        ∃ tv ∈ types, ∃ t, asObj tv = .ok t ∧ classify ogids t = .ok (some (.inr m)) ∧
          pyTruthy (objGetD t "published" (.jbool false)) = true)) := by
  constructor
  · intro categories groups types out h it hit
    rcases items_main_elim h with ⟨cl, gl, raw, st, h1, h2, h3, h4, h5, h6⟩
    have hraw : it ∈ raw := sortPyList_mem h4 it hit
    rcases extract_items_mem_src h3 it hraw with ⟨tv, htv, t, hto, hte⟩
    have hp := (emit_item_some_elim hte).1
    exact ⟨cl, gl, h1, h2, tv, htv, t, hto, hte, hp⟩
  · intro groups types mats out h
    rcases ores_main_elim h with ⟨ogids, om, oreIds, minIds, h1, h2, h3, h4, h5, h6, h7, h8⟩
    constructor
    · intro o hom
      have ho1 : o ∈ om.1 := by
        rw [h7] at hom
        exact (List.mem_insertionSort _).mp hom
      rcases extract_om_ore_src h2 o ho1 with ⟨tv, htv, t, hto, htc⟩
      exact ⟨ogids, h1, tv, htv, t, hto, htc, (classify_inl_elim htc).1⟩
    · intro m hmm
      have hm2 : m ∈ om.2 := sortPyList_mem h6 m hmm
      rcases extract_om_min_src h2 m hm2 with ⟨tv, htv, t, hto, htc⟩
      exact ⟨ogids, h1, tv, htv, t, hto, htc, (classify_inr_elim htc).1⟩

/-- Witness for (the amended) C1 at the example scenario: the Tritanium
item and the Veldspar ore each trace back to a published source record. -/
theorem claim_C1_witness :
    (∃ cl gl, category_lookup [] exCats = .ok cl ∧ group_lookup cl [] exGroups = .ok gl ∧
      ∃ tv ∈ exTypes, ∃ t, asObj tv = .ok t ∧ emit_item gl t = .ok (some exItemTri) ∧
        pyTruthy (objGetD t "published" (.jbool false)) = true) ∧
    (∃ ogids, ore_group_ids [] exGroups = .ok ogids ∧
      ∃ tv ∈ exTypes, ∃ t, asObj tv = .ok t ∧ classify ogids t = .ok (some (.inl exOre)) ∧
        pyTruthy (objGetD t "published" (.jbool false)) = true) :=
  ⟨claim_C1_amended.1 exCats exGroups exTypes exItemsOut exItems_eval exItemTri (List.Mem.head _),
   (claim_C1_amended.2 exGroups exTypes exMats exOresOut exOres_eval).1 exOre (List.Mem.head _)⟩

/-- Type record whose `published` flag is the truthy string `"x"`, for the
C1 counterexample. -/
def c1typeObj : Obj :=
  [("_key", .jnum 1), ("name", .jobj [("en", .jstr "A")]), ("published", .jstr "x")]

/-- Counterexample to C1 as stated: with `published: "x"` (truthy, but not
equal to the boolean `true` — in Python `"x" == True` is `False`) the item
pipeline still emits the record, so an output item exists whose only
possible source record does not satisfy `published == true`. -/
theorem claim_C1_counterexample :
    items_main [] [] [.jobj c1typeObj] =
      .ok ⟨⟨"EVE Online SDE", 1, 1, 1, [(.jstr "Unknown", 1)]⟩,
        [⟨.jnum 1, .jstr "A", .jnum 0, .jnull, .jstr "Unknown", .jnull, .jstr "Unknown"⟩]⟩ ∧
    pyEqS (objGetD c1typeObj "published" (.jbool false)) (.jbool true) = false ∧
    pyTruthy (objGetD c1typeObj "published" (.jbool false)) = true :=
  ⟨rfl, rfl, rfl⟩

/-- The zero-volume test the statistics loop applies to an item:
`item['volume'] == 0`, on the numeric reading of the volume. -/
def zeroVolB (it : Item) : Bool :=
  match pyToRat it.volume with
  | some r => r == 0
  | none => false

theorem stats_loop_zero_count {byCat : List (JVal × Nat)} {zc : Nat} {its : List Item}
    {st : List (JVal × Nat) × Nat} (h : stats_loop byCat zc its = .ok st) :
    st.2 = zc + (its.filter zeroVolB).length := by
  induction its generalizing byCat zc with
  | nil =>
      simp only [stats_loop] at h
      cases h
      simp
  | cons it its ih =>
      simp only [stats_loop] at h
      by_cases hh : isHashable it.categoryName
      · rw [if_pos hh] at h
        cases hv : pyToRat it.volume with
        | none => rw [hv] at h; cases h
        | some r =>
            rw [hv] at h
            dsimp only at h
            have hrec := ih h
            have hfc : (it :: its).filter zeroVolB
                = if zeroVolB it then it :: its.filter zeroVolB else its.filter zeroVolB :=
              List.filter_cons
            have hzb : zeroVolB it = (r == 0) := by simp [zeroVolB, hv]
            rw [hfc, hzb]
            by_cases hz : r == 0
            · rw [if_pos hz]
              rw [if_pos hz] at hrec
              simp only [List.length_cons]
              omega
            · rw [if_neg hz]
              rw [if_neg hz] at hrec
              exact hrec
      · rw [if_neg hh] at h
        cases h

/-- Claim C8: in the items metadata, `itemCount` is the number of output
items and `itemsWithZeroVolume` is the number of output items whose
`volume` equals `0` (Python `==` on the numeric volume); moreover a source
type lacking a `volume` field is emitted with volume `0`, hence counted. -/
theorem claim_C8_zero_volume_counts :
    (∀ (categories groups types : List JVal) (out : ItemsOutput),
      items_main categories groups types = .ok out →
      out.metadata.itemCount = out.items.length ∧
      out.metadata.itemsWithZeroVolume = (out.items.filter zeroVolB).length) ∧
    (∀ (gl : List (JVal × GroupInfo)) (t : Obj) (it : Item), objGet t "volume" = none →
      emit_item gl t = .ok (some it) → it.volume = .jnum 0) := by
  constructor
  · intro categories groups types out h
    rcases items_main_elim h with ⟨cl, gl, raw, st, h1, h2, h3, h4, h5, h6⟩
    constructor
    · rw [h6]
    · rw [h6]
      simpa using stats_loop_zero_count h5
  · intro gl t it hv he
    rcases emit_item_some_elim he with ⟨hp, hh, typeID, hk, hitEq⟩
    subst hitEq
    simp [objGetD, hv]

/-- Witness for C8: on the example scenario `itemCount` is `2` and no item
has zero volume; and a record lacking `volume` (the C1 counterexample
record) is emitted with volume `0`. -/
theorem claim_C8_witness :
    (exItemsOut.metadata.itemCount = exItemsOut.items.length ∧
      exItemsOut.metadata.itemsWithZeroVolume = (exItemsOut.items.filter zeroVolB).length) ∧
    (⟨.jnum 1, .jstr "A", .jnum 0, .jnull, .jstr "Unknown", .jnull,
        .jstr "Unknown"⟩ : Item).volume = .jnum 0 :=
  ⟨claim_C8_zero_volume_counts.1 exCats exGroups exTypes exItemsOut exItems_eval,
   claim_C8_zero_volume_counts.2 [] c1typeObj _ rfl rfl⟩

/-- Whether a raw type record (a decoded line) is a published dict record —
the per-record condition under which the loops emit. -/
def pubRecB : JVal → Bool
  | .jobj fs => pyTruthy (objGetD fs "published" (.jbool false))
  | _ => false

theorem asObj_elim {tv : JVal} {t : Obj} (h : asObj tv = .ok t) : tv = .jobj t := by
  cases tv <;> simp_all [asObj]

theorem emit_item_none_elim {gl : List (JVal × GroupInfo)} {t : Obj}
    (h : emit_item gl t = .ok none) :
    pyTruthy (objGetD t "published" (.jbool false)) = false := by
  unfold emit_item at h
  cases hk : subscr t "_key" with
  | error e => rw [hk] at h; cases h
  | ok typeID =>
      rw [hk] at h
      dsimp only at h
      by_cases hp : pyTruthy (objGetD t "published" (.jbool false))
      · rw [if_pos hp] at h
        by_cases hh : isHashable (objGetD t "groupID" .jnull)
        · rw [if_pos hh] at h
          cases h
        · rw [if_neg hh] at h
          cases h
      · rw [if_neg hp] at h
        simpa using hp

theorem extract_items_append {gl : List (JVal × GroupInfo)} {as bs : List JVal}
    {la lb : List Item} (ha : extract_items gl as = .ok la)
    (hb : extract_items gl bs = .ok lb) :
    extract_items gl (as ++ bs) = .ok (la ++ lb) := by
  induction as generalizing la with
  | nil =>
      simp only [extract_items] at ha
      cases ha
      simpa using hb
  | cons tv as ih =>
      simp only [extract_items] at ha
      simp only [List.cons_append, extract_items]
      cases ho : asObj tv with
      | error e => rw [ho] at ha; cases ha
      | ok t =>
          rw [ho] at ha
          dsimp only at ha ⊢
          cases he : emit_item gl t with
          | error e => rw [he] at ha; cases ha
          | ok r =>
              rw [he] at ha
              dsimp only at ha ⊢
              cases hr : extract_items gl as with
              | error e => rw [hr] at ha; cases ha
              | ok rest =>
                  rw [hr] at ha
                  dsimp only at ha
                  simp only [List.append_eq]
                  rw [ih hr]
                  dsimp only
                  cases r with
                  | some it =>
                      cases ha
                      simp
                  | none =>
                      cases ha
                      rfl

theorem extract_items_single {gl : List (JVal × GroupInfo)} {tv : JVal} {t : Obj}
    {it : Item} (ho : asObj tv = .ok t) (he : emit_item gl t = .ok (some it)) :
    extract_items gl [tv] = .ok [it] := by
  simp only [extract_items, ho, he]

theorem extract_items_length {gl : List (JVal × GroupInfo)} {ts : List JVal}
    {l : List Item} (h : extract_items gl ts = .ok l) :
    l.length = (ts.filter pubRecB).length := by
  induction ts generalizing l with
  | nil =>
      simp only [extract_items] at h
      cases h
      rfl
  | cons tv ts ih =>
      simp only [extract_items] at h
      cases ho : asObj tv with
      | error e => rw [ho] at h; cases h
      | ok t =>
          rw [ho] at h
          dsimp only at h
          have htv : tv = .jobj t := asObj_elim ho
          cases he : emit_item gl t with
          | error e => rw [he] at h; cases h
          | ok r =>
              rw [he] at h
              dsimp only at h
              cases hr : extract_items gl ts with
              | error e => rw [hr] at h; cases h
              | ok rest =>
                  rw [hr] at h
                  dsimp only at h
                  cases r with
                  | some it =>
                      cases h
                      have hp := (emit_item_some_elim he).1
                      have : pubRecB tv = true := by
                        rw [htv]
                        simpa [pubRecB] using hp
                      simp [List.filter_cons, this, ih hr]
                  | none =>
                      cases h
                      have hp := emit_item_none_elim he
                      have : pubRecB tv = false := by
                        rw [htv]
                        simpa [pubRecB] using hp
                      simp [List.filter_cons, this, ih hr]

theorem sortPyList_length {key : α → JVal} {l l' : List α}
    (h : sortPyList key l = .ok l') : l'.length = l.length := by
  unfold sortPyList at h
  by_cases h1 : l.length ≤ 1
  · rw [if_pos h1] at h
    cases h
    rfl
  · rw [if_neg h1] at h
    by_cases h2 : l.all (fun x => (jstrOf (key x)).isSome)
    · rw [if_pos h2] at h
      cases h
      exact (List.perm_insertionSort _ l).length_eq
    · rw [if_neg h2] at h
      by_cases h3 : l.all (fun x => (pyToRat (key x)).isSome)
      · rw [if_pos h3] at h
        cases h
        exact (List.perm_insertionSort _ l).length_eq
      · rw [if_neg h3] at h
        cases h

theorem extract_om_append {ogids : List JVal} {as bs : List JVal}
    {pa pb : List Ore × List Mineral} (ha : extract_om ogids as = .ok pa)
    (hb : extract_om ogids bs = .ok pb) :
    extract_om ogids (as ++ bs) = .ok (pa.1 ++ pb.1, pa.2 ++ pb.2) := by
  induction as generalizing pa with
  | nil =>
      simp only [extract_om] at ha
      cases ha
      simpa using hb
  | cons tv as ih =>
      simp only [extract_om] at ha
      simp only [List.cons_append, extract_om]
      cases ho : asObj tv with
      | error e => rw [ho] at ha; cases ha
      | ok t =>
          rw [ho] at ha
          dsimp only at ha ⊢
          cases hc : classify ogids t with
          | error e => rw [hc] at ha; cases ha
          | ok r =>
              rw [hc] at ha
              dsimp only at ha ⊢
              cases hr : extract_om ogids as with
              | error e => rw [hr] at ha; cases ha
              | ok rest =>
                  rw [hr] at ha
                  dsimp only at ha
                  simp only [List.append_eq]
                  rw [ih hr]
                  dsimp only
                  cases r with
                  | some x =>
                      cases x with
                      | inl o =>
                          cases ha
                          simp
                      | inr m =>
                          cases ha
                          simp
                  | none =>
                      cases ha
                      rfl

theorem extract_om_single {ogids : List JVal} {tv : JVal} {t : Obj} {x : Ore ⊕ Mineral}
    (ho : asObj tv = .ok t) (hc : classify ogids t = .ok (some x)) :
    extract_om ogids [tv] = .ok (match x with
      | .inl o => ([o], [])
      | .inr m => ([], [m])) := by
  cases x with
  | inl o => simp only [extract_om, ho, hc]
  | inr m => simp only [extract_om, ho, hc]

/-- Sum of the per-category counts. -/
def catSum (byCat : List (JVal × Nat)) : Nat := (byCat.map (fun p => p.2)).sum

/-- Keys of a Python dict are pairwise distinct under `pyEqS`. -/
def DistinctK (d : List (JVal × Nat)) : Prop :=
  d.Pairwise (fun p q => pyEqS q.1 p.1 = false)

theorem pyEqS_eucl {a b c : JVal} (h1 : pyEqS a b = true) (h2 : pyEqS c b = true) :
    pyEqS c a = true := by
  cases a <;> cases b <;> cases c <;> simp_all [pyEqS]

theorem pyEqS_false_symm {a b : JVal} (h : pyEqS a b = false) : pyEqS b a = false := by
  cases hc : pyEqS b a
  · rfl
  · rw [pyEqS_symm hc] at h
    cases h

theorem dinsert_bump_sum {d : List (JVal × Nat)} {k : JVal} (hd : DistinctK d) :
    catSum (dinsert d k ((dget d k).getD 0 + 1)) = catSum d + 1 := by
  induction d with
  | nil => simp [dinsert, dget, catSum]
  | cons p d ih =>
      have hdTail : DistinctK d := (List.pairwise_cons.mp hd).2
      have hdHead : ∀ q ∈ d, pyEqS q.1 p.1 = false := (List.pairwise_cons.mp hd).1
      by_cases hp : pyEqS p.1 k
      · have hTailNo : ∀ q ∈ d, pyEqS q.1 k = false := by
          intro q hq
          cases hqk : pyEqS q.1 k
          · rfl
          · have := pyEqS_eucl hp hqk
            rw [hdHead q hq] at this
            cases this
        have hGet : dget (p :: d) k = some p.2 := by
          simp [dget, List.find?_cons, hp]
        have hAny : ((p :: d).any fun q => pyEqS q.1 k) = true := by
          simp [List.any_cons, hp]
        rw [hGet]
        unfold dinsert
        rw [if_pos hAny]
        simp only [Option.getD_some]
        have hMapTail :
            d.map (fun q => if pyEqS q.1 k = true then (q.1, p.2 + 1) else q) = d := by
          have hcong : ∀ q ∈ d,
              (if pyEqS q.1 k = true then (q.1, p.2 + 1) else q) = id q := by
            intro q hq
            simp [hTailNo q hq]
          exact (List.map_congr_left hcong).trans (List.map_id d)
        simp only [List.map_cons, hp, if_true, catSum, List.sum_cons, hMapTail]
        omega
      · have hGet : dget (p :: d) k = dget d k := by
          simp [dget, List.find?_cons, hp]
        rw [hGet]
        by_cases hAnyT : d.any (fun q => pyEqS q.1 k)
        · have hAny : ((p :: d).any fun q => pyEqS q.1 k) = true := by
            simp [List.any_cons, hAnyT]
          unfold dinsert
          rw [if_pos hAny]
          have hih := ih hdTail
          unfold dinsert at hih
          rw [if_pos hAnyT] at hih
          simp only [List.map_cons, if_neg hp]
          simp only [catSum, List.map_cons, List.sum_cons] at *
          omega
        · have hFindT : List.find? (fun q => pyEqS q.1 k) d = none := by
            rw [List.find?_eq_none]
            intro q hq
            cases hqk : pyEqS q.1 k
            · simp
            · exact absurd (List.any_eq_true.mpr ⟨q, hq, hqk⟩) hAnyT
          have hNoneT : dget d k = none := by
            simp [dget, hFindT]
          have hAny : ((p :: d).any fun q => pyEqS q.1 k) = false := by
            simp only [List.any_cons, Bool.or_eq_false_iff]
            exact ⟨by simpa using hp, by simpa using hAnyT⟩
          unfold dinsert
          rw [if_neg (by simp [hAny])]
          rw [hNoneT]
          simp only [catSum, List.map_append, List.map_cons, List.sum_append, List.sum_cons]
          simp

theorem dinsert_bump_distinct {d : List (JVal × Nat)} {k : JVal} {v : Nat}
    (hd : DistinctK d) : DistinctK (dinsert d k v) := by
  unfold dinsert
  by_cases hAny : d.any (fun q => pyEqS q.1 k)
  · rw [if_pos hAny]
    unfold DistinctK at hd ⊢
    rw [List.pairwise_map]
    refine hd.imp ?_
    intro p q hpq
    by_cases h1 : pyEqS p.1 k <;> by_cases h2 : pyEqS q.1 k <;>
      simp [h1, h2, hpq]
  · rw [if_neg hAny]
    unfold DistinctK at hd ⊢
    rw [List.pairwise_append]
    refine ⟨hd, List.pairwise_singleton _ _, ?_⟩
    intro p hp q hq
    cases List.mem_singleton.mp hq
    have hpk : pyEqS p.1 k = false := by
      cases hc : pyEqS p.1 k
      · rfl
      · exact absurd (List.any_eq_true.mpr ⟨p, hp, hc⟩) hAny
    exact pyEqS_false_symm hpk

theorem stats_loop_cat_sum {byCat : List (JVal × Nat)} {zc : Nat} {its : List Item}
    {st : List (JVal × Nat) × Nat} (h : stats_loop byCat zc its = .ok st)
    (hd : DistinctK byCat) : catSum st.1 = catSum byCat + its.length := by
  induction its generalizing byCat zc with
  | nil =>
      simp only [stats_loop] at h
      cases h
      simp
  | cons it its ih =>
      simp only [stats_loop] at h
      by_cases hh : isHashable it.categoryName
      · rw [if_pos hh] at h
        cases hv : pyToRat it.volume with
        | none => rw [hv] at h; cases h
        | some r =>
            rw [hv] at h
            dsimp only at h
            have hrec := ih h (dinsert_bump_distinct hd)
            rw [dinsert_bump_sum hd] at hrec
            simp only [List.length_cons]
            omega
      · rw [if_neg hh] at h
        cases h

/-- Claim C10: the type table is not deduplicated.  A published type record
occurring on several lines contributes one output record per occurrence —
shown here for two occurrences in arbitrary positions, for the item
pipeline and for both branches of the ore pipeline, each occurrence
producing the very same record (hence the same typeID) — and the counts in
the metadata tally records, not distinct ids: `itemCount` is the length of
`items`, which is the number of published source lines counted with
multiplicity, the per-category counts sum to the same, and
`oreCount`/`mineralCount` are the lengths of `ores`/`minerals`. -/
theorem claim_C10_no_dedup :
    (∀ (gl : List (JVal × GroupInfo)) (ts1 ts2 ts3 : List JVal) (tv : JVal) (t : Obj)
        (it : Item) (l1 l2 l3 : List Item),
      asObj tv = .ok t → emit_item gl t = .ok (some it) →
      extract_items gl ts1 = .ok l1 → extract_items gl ts2 = .ok l2 →
      extract_items gl ts3 = .ok l3 →
      extract_items gl (ts1 ++ tv :: (ts2 ++ tv :: ts3)) =
        .ok (l1 ++ it :: (l2 ++ it :: l3))) ∧
    (∀ (ogids : List JVal) (ts1 ts2 ts3 : List JVal) (tv : JVal) (t : Obj) (o : Ore)
        (p1 p2 p3 : List Ore × List Mineral),
      asObj tv = .ok t → classify ogids t = .ok (some (.inl o)) →
      extract_om ogids ts1 = .ok p1 → extract_om ogids ts2 = .ok p2 →
      extract_om ogids ts3 = .ok p3 →
      extract_om ogids (ts1 ++ tv :: (ts2 ++ tv :: ts3)) =
        .ok (p1.1 ++ o :: (p2.1 ++ o :: p3.1), p1.2 ++ (p2.2 ++ p3.2))) ∧
    (∀ (ogids : List JVal) (ts1 ts2 ts3 : List JVal) (tv : JVal) (t : Obj) (m : Mineral)
        (p1 p2 p3 : List Ore × List Mineral),
      asObj tv = .ok t → classify ogids t = .ok (some (.inr m)) →
      extract_om ogids ts1 = .ok p1 → extract_om ogids ts2 = .ok p2 →
      extract_om ogids ts3 = .ok p3 →
      extract_om ogids (ts1 ++ tv :: (ts2 ++ tv :: ts3)) =
        .ok (p1.1 ++ (p2.1 ++ p3.1), p1.2 ++ m :: (p2.2 ++ m :: p3.2))) ∧
    (∀ (categories groups types : List JVal) (out : ItemsOutput),
      items_main categories groups types = .ok out →
      out.metadata.itemCount = out.items.length ∧
      out.items.length = (types.filter pubRecB).length ∧
      catSum out.metadata.categories = out.items.length) ∧
    (∀ (groups types mats : List JVal) (out : OresOutput),
      ores_main groups types mats = .ok out →
      out.metadata.oreCount = out.ores.length ∧
      out.metadata.mineralCount = out.minerals.length) := by
  refine ⟨?_, ?_, ?_, ?_, ?_⟩
  · intro gl ts1 ts2 ts3 tv t it l1 l2 l3 ho he h1 h2 h3
    have s1 := extract_items_single ho he
    have e1 := extract_items_append s1 h3
    have e2 := extract_items_append h2 e1
    have e3 := extract_items_append s1 e2
    have e4 := extract_items_append h1 e3
    simpa [List.singleton_append] using e4
  · intro ogids ts1 ts2 ts3 tv t o p1 p2 p3 ho hc h1 h2 h3
    have s1 := extract_om_single ho hc
    have e1 := extract_om_append s1 h3
    have e2 := extract_om_append h2 e1
    have e3 := extract_om_append s1 e2
    have e4 := extract_om_append h1 e3
    simpa [List.singleton_append] using e4
  · intro ogids ts1 ts2 ts3 tv t m p1 p2 p3 ho hc h1 h2 h3
    have s1 := extract_om_single ho hc
    have e1 := extract_om_append s1 h3
    have e2 := extract_om_append h2 e1
    have e3 := extract_om_append s1 e2
    have e4 := extract_om_append h1 e3
    simpa [List.singleton_append] using e4
  · intro categories groups types out h
    rcases items_main_elim h with ⟨cl, gl, raw, st, h1, h2, h3, h4, h5, h6⟩
    refine ⟨by rw [h6], ?_, ?_⟩
    · rw [sortPyList_length h4]
      exact extract_items_length h3
    · rw [h6]
      have := stats_loop_cat_sum h5 (List.Pairwise.nil)
      simpa [catSum] using this
  · intro groups types mats out h
    rcases ores_main_elim h with ⟨ogids, om, oreIds, minIds, h1, h2, h3, h4, h5, h6, h7, h8⟩
    exact ⟨by rw [h8], by rw [h8]⟩

/-- Witness for C10: duplicating the (published) C1 record on two lines
produces two identical item records, and the counting conjuncts hold on the
example scenario. -/
theorem claim_C10_witness :
    extract_items [] ([] ++ .jobj c1typeObj :: ([] ++ .jobj c1typeObj :: [])) =
      .ok ([] ++ ⟨.jnum 1, .jstr "A", .jnum 0, .jnull, .jstr "Unknown", .jnull,
        .jstr "Unknown"⟩ :: ([] ++ ⟨.jnum 1, .jstr "A", .jnum 0, .jnull, .jstr "Unknown",
        .jnull, .jstr "Unknown"⟩ :: [])) ∧
    (exItemsOut.metadata.itemCount = exItemsOut.items.length ∧
      exItemsOut.items.length = (exTypes.filter pubRecB).length ∧
      catSum exItemsOut.metadata.categories = exItemsOut.items.length) :=
  ⟨claim_C10_no_dedup.1 [] [] [] [] (.jobj c1typeObj) c1typeObj _ [] [] [] rfl rfl rfl rfl rfl,
   claim_C10_no_dedup.2.2.2.1 exCats exGroups exTypes exItemsOut exItems_eval⟩

/-- The comparison CPython's sort applies to two name keys, as a
proposition: both strings, compared lexicographically by code point, or
both numbers/bools, compared numerically. -/
def jKeyLe (x y : JVal) : Prop :=
  (∃ s t, x = .jstr s ∧ y = .jstr t ∧ strLeB s t = true) ∨
  (∃ p q, pyToRat x = some p ∧ pyToRat y = some q ∧ p ≤ q)

theorem jstrOf_eq_some {x : JVal} {s : String} (h : jstrOf x = some s) : x = .jstr s := by
  cases x <;> simp_all [jstrOf]

theorem pairwise_of_forall_mem {r : α → α → Prop} {l : List α}
    (h : ∀ a ∈ l, ∀ b ∈ l, r a b) : l.Pairwise r := by
  induction l with
  | nil => exact List.Pairwise.nil
  | cons x xs ih =>
      refine List.Pairwise.cons ?_ (ih ?_)
      · intro b hb
        exact h x (List.mem_cons_self _ _) b (List.mem_cons_of_mem _ hb)
      · intro a ha b hb
        exact h a (List.mem_cons_of_mem _ ha) b (List.mem_cons_of_mem _ hb)

theorem filter_insertionSort_eq (r : α → α → Prop) [DecidableRel r] [IsTotal α r]
    [IsTrans α r] (l : List α) (p : α → Bool) (hp : List.Pairwise r (l.filter p)) :
    (List.insertionSort r l).filter p = l.filter p := by
  have hsub : List.Sublist (l.filter p) l := List.filter_sublist l
  have h2 : List.Sublist (l.filter p) (List.insertionSort r l) :=
    List.sublist_insertionSort hp hsub
  have h3 := List.Sublist.filter p h2
  have hself : (l.filter p).filter p = l.filter p :=
    List.filter_eq_self.mpr (fun a ha => List.of_mem_filter ha)
  rw [hself] at h3
  have hperm : List.Perm ((List.insertionSort r l).filter p) (l.filter p) :=
    (List.perm_insertionSort r l).filter p
  exact (List.Sublist.eq_of_length h3 hperm.length_eq.symm).symm

theorem sortPyList_sorted {key : α → JVal} {l l' : List α}
    (h : sortPyList key l = .ok l') :
    l'.Pairwise (fun a b => jKeyLe (key a) (key b)) := by
  unfold sortPyList at h
  by_cases h1 : l.length ≤ 1
  · rw [if_pos h1] at h
    cases h
    cases l with
    | nil => exact List.Pairwise.nil
    | cons x xs =>
        cases xs with
        | nil => exact List.pairwise_singleton _ _
        | cons y ys => simp at h1
  · rw [if_neg h1] at h
    by_cases h2 : l.all (fun x => (jstrOf (key x)).isSome)
    · rw [if_pos h2] at h
      cases h
      have hsorted : (List.insertionSort (strKeyRel key) l).Pairwise (strKeyRel key) :=
        List.sorted_insertionSort _ l
      refine hsorted.imp_of_mem ?_
      intro a b ha hb hr
      have ha2 : a ∈ l := (List.mem_insertionSort _).mp ha
      have hb2 : b ∈ l := (List.mem_insertionSort _).mp hb
      have hsa := List.all_eq_true.mp h2 a ha2
      have hsb := List.all_eq_true.mp h2 b hb2
      cases hga : jstrOf (key a) with
      | none => rw [hga] at hsa; cases hsa
      | some sa =>
          cases hgb : jstrOf (key b) with
          | none => rw [hgb] at hsb; cases hsb
          | some sb =>
              left
              refine ⟨sa, sb, jstrOf_eq_some hga, jstrOf_eq_some hgb, ?_⟩
              unfold strKeyRel strKeyOf at hr
              rw [hga, hgb] at hr
              exact hr
    · rw [if_neg h2] at h
      by_cases h3 : l.all (fun x => (pyToRat (key x)).isSome)
      · rw [if_pos h3] at h
        cases h
        have hsorted : (List.insertionSort (ratKeyRel key) l).Pairwise (ratKeyRel key) :=
          List.sorted_insertionSort _ l
        refine hsorted.imp_of_mem ?_
        intro a b ha hb hr
        have ha2 : a ∈ l := (List.mem_insertionSort _).mp ha
        have hb2 : b ∈ l := (List.mem_insertionSort _).mp hb
        have hsa := List.all_eq_true.mp h3 a ha2
        have hsb := List.all_eq_true.mp h3 b hb2
        cases hga : pyToRat (key a) with
        | none => rw [hga] at hsa; cases hsa
        | some pa =>
            cases hgb : pyToRat (key b) with
            | none => rw [hgb] at hsb; cases hsb
            | some pb =>
                right
                refine ⟨pa, pb, hga, hgb, ?_⟩
                unfold ratKeyRel ratKeyOf at hr
                rw [hga, hgb] at hr
                exact hr
      · rw [if_neg h3] at h
        cases h

theorem sortPyList_stable {key : α → JVal} {l l' : List α}
    (h : sortPyList key l = .ok l') (p : α → Bool)
    (hp : ∀ a b, p a = true → p b = true →
      strKeyOf key a = strKeyOf key b ∧ ratKeyOf key a = ratKeyOf key b) :
    l'.filter p = l.filter p := by
  unfold sortPyList at h
  by_cases h1 : l.length ≤ 1
  · rw [if_pos h1] at h
    cases h
    rfl
  · rw [if_neg h1] at h
    by_cases h2 : l.all (fun x => (jstrOf (key x)).isSome)
    · rw [if_pos h2] at h
      cases h
      refine filter_insertionSort_eq (strKeyRel key) l p ?_
      refine pairwise_of_forall_mem ?_
      intro a ha b hb
      have hpa := List.of_mem_filter ha
      have hpb := List.of_mem_filter hb
      have := (hp a b hpa hpb).1
      unfold strKeyRel
      rw [this]
      exact strLeB_refl _
    · rw [if_neg h2] at h
      by_cases h3 : l.all (fun x => (pyToRat (key x)).isSome)
      · rw [if_pos h3] at h
        cases h
        refine filter_insertionSort_eq (ratKeyRel key) l p ?_
        refine pairwise_of_forall_mem ?_
        intro a ha b hb
        have hpa := List.of_mem_filter ha
        have hpb := List.of_mem_filter hb
        have := (hp a b hpa hpb).2
        unfold ratKeyRel
        rw [this]
      · rw [if_neg h3] at h
        cases h

theorem pyToRat_some_jstrOf {x : JVal} {q : Rat} (h : pyToRat x = some q) :
    jstrOf x = none := by
  cases x <;> simp_all [pyToRat, jstrOf]

/-- Claim C6: the output `items` are sorted non-decreasingly by name
(lexicographically by code point for the string names the claim concerns;
numerically in the all-numeric corner) with ties left in encounter order —
stated as: filtering the sorted output to any fixed name key yields exactly
the same subsequence as filtering the pre-sort extraction; `ores` are
sorted ascending by the pair `(compressed, name)` (all uncompressed first,
then alphabetically); `minerals` are sorted non-decreasingly by name. -/
theorem claim_C6_sorted_outputs :
    (∀ (categories groups types : List JVal) (out : ItemsOutput),
      items_main categories groups types = .ok out →
      out.items.Pairwise (fun a b => jKeyLe a.name b.name) ∧
      ∃ cl gl raw, category_lookup [] categories = .ok cl ∧
        group_lookup cl [] groups = .ok gl ∧ extract_items gl types = .ok raw ∧
        (∀ s : String, out.items.filter (fun it => jstrOf it.name == some s) =
          raw.filter (fun it => jstrOf it.name == some s)) ∧
        (∀ q : Rat, out.items.filter (fun it => pyToRat it.name == some q) =
          raw.filter (fun it => pyToRat it.name == some q))) ∧
    (∀ (groups types mats : List JVal) (out : OresOutput),
      ores_main groups types mats = .ok out →
      out.ores.Pairwise oreRel ∧
      out.minerals.Pairwise (fun a b => jKeyLe a.name b.name)) := by
  constructor
  · intro categories groups types out h
    rcases items_main_elim h with ⟨cl, gl, raw, st, h1, h2, h3, h4, h5, h6⟩
    refine ⟨sortPyList_sorted h4, cl, gl, raw, h1, h2, h3, ?_, ?_⟩
    · intro s
      refine sortPyList_stable h4 _ ?_
      intro a b hpa hpb
      have ha : jstrOf a.name = some s := eq_of_beq hpa
      have hb : jstrOf b.name = some s := eq_of_beq hpb
      constructor
      · unfold strKeyOf
        dsimp only
        rw [ha, hb]
      · unfold ratKeyOf
        dsimp only
        rw [jstrOf_eq_some ha, jstrOf_eq_some hb]
    · intro q
      refine sortPyList_stable h4 _ ?_
      intro a b hpa hpb
      have ha : pyToRat a.name = some q := eq_of_beq hpa
      have hb : pyToRat b.name = some q := eq_of_beq hpb
      constructor
      · unfold strKeyOf
        dsimp only
        rw [pyToRat_some_jstrOf ha, pyToRat_some_jstrOf hb]
      · unfold ratKeyOf
        dsimp only
        rw [ha, hb]
  · intro groups types mats out h
    rcases ores_main_elim h with ⟨ogids, om, oreIds, minIds, h1, h2, h3, h4, h5, h6, h7, h8⟩
    constructor
    · rw [h7]
      exact List.sorted_insertionSort _ _
    · exact sortPyList_sorted h6

/-- Witness for C6 at the example scenario: the two items are sorted by
name with the stability filters agreeing with the pre-sort extraction, and
the singleton ore/mineral lists are sorted. -/
theorem claim_C6_witness :
    (exItemsOut.items.Pairwise (fun a b => jKeyLe a.name b.name) ∧
      ∃ cl gl raw, category_lookup [] exCats = .ok cl ∧
        group_lookup cl [] exGroups = .ok gl ∧ extract_items gl exTypes = .ok raw ∧
        (∀ s : String, exItemsOut.items.filter (fun it => jstrOf it.name == some s) =
          raw.filter (fun it => jstrOf it.name == some s)) ∧
        (∀ q : Rat, exItemsOut.items.filter (fun it => pyToRat it.name == some q) =
          raw.filter (fun it => pyToRat it.name == some q))) ∧
    (exOresOut.ores.Pairwise oreRel ∧
      exOresOut.minerals.Pairwise (fun a b => jKeyLe a.name b.name)) :=
  ⟨claim_C6_sorted_outputs.1 exCats exGroups exTypes exItemsOut exItems_eval,
   claim_C6_sorted_outputs.2 exGroups exTypes exMats exOresOut exOres_eval⟩

theorem sortPyList_mem_rev {key : α → JVal} {l l' : List α}
    (h : sortPyList key l = .ok l') : ∀ x ∈ l, x ∈ l' := by
  unfold sortPyList at h
  by_cases h1 : l.length ≤ 1
  · rw [if_pos h1] at h
    cases h
    intro x hx
    exact hx
  · rw [if_neg h1] at h
    by_cases h2 : l.all (fun x => (jstrOf (key x)).isSome)
    · rw [if_pos h2] at h
      cases h
      intro x hx
      exact (List.mem_insertionSort _).mpr hx
    · rw [if_neg h2] at h
      by_cases h3 : l.all (fun x => (pyToRat (key x)).isSome)
      · rw [if_pos h3] at h
        cases h
        intro x hx
        exact (List.mem_insertionSort _).mpr hx
      · rw [if_neg h3] at h
        cases h

/-- The pure projection computed by the yield-list comprehension: keep, in
source order and verbatim (no merging of duplicates), one
`{mineralID, quantity}` pair per material entry whose `materialTypeID` is a
known mineral id. -/
def keptYields (minIds : List JVal) : List JVal → List Yield
  | [] => []
  | mv :: ms =>
      match mv with
      | .jobj m =>
          match objGet m "materialTypeID" with
          | some mtid =>
              if smem minIds mtid then
                match objGet m "quantity" with
                | some q => ⟨mtid, q⟩ :: keptYields minIds ms
                | none => keptYields minIds ms
              else keptYields minIds ms
          | none => keptYields minIds ms
      | _ => keptYields minIds ms

theorem yields_loop_eq_kept {minIds : List JVal} {marr : List JVal} {ys : List Yield}
    (h : yields_loop minIds marr = .ok ys) : ys = keptYields minIds marr := by
  induction marr generalizing ys with
  | nil =>
      simp only [yields_loop] at h
      cases h
      rfl
  | cons mv ms ih =>
      simp only [yields_loop] at h
      cases ho : asObj mv with
      | error e => rw [ho] at h; cases h
      | ok m =>
          rw [ho] at h
          dsimp only at h
          cases hm : subscr m "materialTypeID" with
          | error e => rw [hm] at h; cases h
          | ok mtid =>
              rw [hm] at h
              dsimp only at h
              by_cases hh : isHashable mtid
              · rw [if_pos hh] at h
                have hmv : mv = .jobj m := asObj_elim ho
                have hmg : objGet m "materialTypeID" = some mtid := by
                  unfold subscr at hm
                  cases hg : objGet m "materialTypeID" with
                  | none => rw [hg] at hm; cases hm
                  | some v => rw [hg] at hm; cases hm; rfl
                by_cases hs : smem minIds mtid
                · rw [if_pos hs] at h
                  cases hq : subscr m "quantity" with
                  | error e => rw [hq] at h; cases h
                  | ok q =>
                      rw [hq] at h
                      dsimp only at h
                      cases hr : yields_loop minIds ms with
                      | error e => rw [hr] at h; cases h
                      | ok rest =>
                          rw [hr] at h
                          cases h
                          have hqg : objGet m "quantity" = some q := by
                            unfold subscr at hq
                            cases hg : objGet m "quantity" with
                            | none => rw [hg] at hq; cases hq
                            | some v => rw [hg] at hq; cases hq; rfl
                          rw [hmv]
                          simp only [keptYields, hmg, hs, if_true, hqg]
                          rw [ih hr]
                · rw [if_neg hs] at h
                  rw [hmv]
                  simp only [keptYields, hmg]
                  rw [if_neg hs]
                  exact ih h
              · rw [if_neg hh] at h
                cases h

theorem keptYields_mem_smem {minIds : List JVal} {marr : List JVal} {y : Yield}
    (h : y ∈ keptYields minIds marr) : smem minIds y.mineralID = true := by
  induction marr with
  | nil => cases h
  | cons mv ms ih =>
      unfold keptYields at h
      cases mv with
      | jobj m =>
          dsimp only at h
          cases hg : objGet m "materialTypeID" with
          | none =>
              rw [hg] at h
              exact ih h
          | some mtid =>
              rw [hg] at h
              dsimp only at h
              by_cases hs : smem minIds mtid
              · rw [if_pos hs] at h
                cases hq : objGet m "quantity" with
                | none =>
                    rw [hq] at h
                    exact ih h
                | some q =>
                    rw [hq] at h
                    rcases List.mem_cons.mp h with heq | hm
                    · rw [heq]
                      exact hs
                    · exact ih hm
              · rw [if_neg hs] at h
                exact ih h
      | jnull => exact ih h
      | jbool b => exact ih h
      | jnum q => exact ih h
      | jstr s => exact ih h
      | jarr xs => exact ih h

theorem dinsertS_mem {d : List (String × α)} {k0 : String} {v0 : α} {k : String} {v : α}
    (h : (k, v) ∈ dinsertS d k0 v0) : (k, v) ∈ d ∨ (k = k0 ∧ v = v0) := by
  unfold dinsertS at h
  by_cases hc : d.any (fun p => p.1 == k0)
  · rw [if_pos hc] at h
    rcases List.mem_map.mp h with ⟨p, hp, he⟩
    by_cases hpk : p.1 == k0
    · rw [if_pos hpk] at he
      cases he
      exact Or.inr ⟨(eq_of_beq hpk), rfl⟩
    · rw [if_neg hpk] at he
      exact Or.inl (he ▸ hp)
  · rw [if_neg hc] at h
    rcases List.mem_append.mp h with hm | hm
    · exact Or.inl hm
    · cases List.mem_singleton.mp hm
      exact Or.inr ⟨rfl, rfl⟩

theorem build_reprocessing_mem {oreIds minIds : List JVal}
    {acc rp : List (String × List Yield)} {ms : List JVal}
    (h : build_reprocessing oreIds minIds acc ms = .ok rp) :
    ∀ k ys, (k, ys) ∈ rp → (k, ys) ∈ acc ∨
      ∃ mv ∈ ms, ∃ mt tid marr, asObj mv = .ok mt ∧ subscr mt "_key" = .ok tid ∧
        smem oreIds tid = true ∧ k = pyStr tid ∧
        asArr (objGetD mt "materials" (.jarr [])) = .ok marr ∧
        yields_loop minIds marr = .ok ys ∧ ys ≠ [] := by
  induction ms generalizing acc with
  | nil =>
      simp only [build_reprocessing] at h
      cases h
      intro k ys hm
      exact Or.inl hm
  | cons mv ms ih =>
      simp only [build_reprocessing] at h
      cases ho : asObj mv with
      | error e => rw [ho] at h; cases h
      | ok mt =>
          rw [ho] at h
          dsimp only at h
          cases hk : subscr mt "_key" with
          | error e => rw [hk] at h; cases h
          | ok tid =>
              rw [hk] at h
              dsimp only at h
              by_cases hh : isHashable tid
              · rw [if_pos hh] at h
                by_cases hs : smem oreIds tid
                · rw [if_pos hs] at h
                  cases ha : asArr (objGetD mt "materials" (.jarr [])) with
                  | error e => rw [ha] at h; cases h
                  | ok marr =>
                      rw [ha] at h
                      dsimp only at h
                      cases hy : yields_loop minIds marr with
                      | error e => rw [hy] at h; cases h
                      | ok ys0 =>
                          rw [hy] at h
                          dsimp only at h
                          by_cases he : ys0.isEmpty
                          · rw [if_pos he] at h
                            intro k ys hm
                            rcases ih h k ys hm with hacc | ⟨mv2, hmv2, rest⟩
                            · exact Or.inl hacc
                            · exact Or.inr ⟨mv2, List.mem_cons_of_mem _ hmv2, rest⟩
                          · rw [if_neg he] at h
                            intro k ys hm
                            rcases ih h k ys hm with hacc | ⟨mv2, hmv2, rest⟩
                            · rcases dinsertS_mem hacc with hacc2 | ⟨hkk, hyy⟩
                              · exact Or.inl hacc2
                              · subst hkk
                                subst hyy
                                refine Or.inr ⟨mv, List.mem_cons_self _ _, mt, tid, marr,
                                  ho, hk, hs, rfl, ha, hy, ?_⟩
                                intro hcon
                                rw [hcon] at he
                                exact he rfl
                            · exact Or.inr ⟨mv2, List.mem_cons_of_mem _ hmv2, rest⟩
                · rw [if_neg hs] at h
                  intro k ys hm
                  rcases ih h k ys hm with hacc | ⟨mv2, hmv2, rest⟩
                  · exact Or.inl hacc
                  · exact Or.inr ⟨mv2, List.mem_cons_of_mem _ hmv2, rest⟩
              · rw [if_neg hh] at h
                cases h

/-- Claim C5: the `reprocessing` mapping is well-formed.  Every key is the
string form of the typeID of some output ore; every yield list is
non-empty (empty filtered lists produce no entry); every `mineralID` in a
yield list matches the typeID of some output mineral; and every yield list
is exactly the in-order, unmerged projection (`keptYields`) of its source
record's material list restricted to known mineral ids. -/
theorem claim_C5_reprocessing_wellformed {groups types mats : List JVal}
    {out : OresOutput} (h : ores_main groups types mats = .ok out) :
    ∃ ogids om oreIds minIds,
      ore_group_ids [] groups = .ok ogids ∧ extract_om ogids types = .ok om ∧
      ids_of [] (om.1.map (fun o => o.typeID)) = .ok oreIds ∧
      ids_of [] (om.2.map (fun mm => mm.typeID)) = .ok minIds ∧
      ∀ k ys, (k, ys) ∈ out.reprocessing →
        (∃ o ∈ out.ores, k = pyStr o.typeID) ∧
        ys ≠ [] ∧
        (∀ y ∈ ys, ∃ mm ∈ out.minerals, pyEqS y.mineralID mm.typeID = true) ∧
        (∃ mv ∈ mats, ∃ mt tid marr, asObj mv = .ok mt ∧ subscr mt "_key" = .ok tid ∧
          smem oreIds tid = true ∧ k = pyStr tid ∧
          asArr (objGetD mt "materials" (.jarr [])) = .ok marr ∧
          ys = keptYields minIds marr) := by
  rcases ores_main_elim h with ⟨ogids, om, oreIds, minIds, h1, h2, h3, h4, h5, h6, h7, h8⟩
  refine ⟨ogids, om, oreIds, minIds, h1, h2, h3, h4, ?_⟩
  intro k ys hm
  rcases build_reprocessing_mem h5 k ys hm with hacc | ⟨mv, hmv, mt, tid, marr, ho, hk, hs,
    hkk, ha, hy, hne⟩
  · cases hacc
  refine ⟨?_, hne, ?_, mv, hmv, mt, tid, marr, ho, hk, hs, hkk, ha, yields_loop_eq_kept hy⟩
  · rcases smem_exists hs with ⟨x, hx, hxe⟩
    rcases ids_of_mem h3 x hx with habs | hxm
    · cases habs
    · rcases List.mem_map.mp hxm with ⟨o, hoo, hoe⟩
      refine ⟨o, ?_, ?_⟩
      · rw [h7]
        exact (List.mem_insertionSort _).mpr hoo
      · have hxo : x = o.typeID := by simpa using hoe.symm
        rw [hkk, ← hxo]
        exact (pyStr_congr hxe).symm
  · intro y hy2
    have hys := keptYields_mem_smem (yields_loop_eq_kept hy ▸ hy2)
    rcases smem_exists hys with ⟨x, hx, hxe⟩
    rcases ids_of_mem h4 x hx with habs | hxm
    · cases habs
    · rcases List.mem_map.mp hxm with ⟨mm, hmm, hme⟩
      refine ⟨mm, sortPyList_mem_rev h6 mm hmm, ?_⟩
      have hme2 : x = mm.typeID := by simpa using hme.symm
      exact hme2 ▸ pyEqS_symm hxe

/-- Witness for C5 at the example scenario: the single reprocessing entry
`"1230"` is the string of the Veldspar ore's typeID and its only yield's
`mineralID` matches the Tritanium mineral. -/
theorem claim_C5_witness :
    (∃ o ∈ exOresOut.ores, "1230" = pyStr o.typeID) ∧
    ([(⟨.jnum 34, .jnum 415⟩ : Yield)] ≠ []) ∧
    (∃ mm ∈ exOresOut.minerals, pyEqS (JVal.jnum 34) mm.typeID = true) := by
  rcases claim_C5_reprocessing_wellformed exOres_eval with
    ⟨ogids, om, oreIds, minIds, e1, e2, e3, e4, hall⟩
  have hres := hall "1230" [⟨.jnum 34, .jnum 415⟩] (List.Mem.head _)
  exact ⟨hres.1, hres.2.1, hres.2.2.1 ⟨.jnum 34, .jnum 415⟩ (List.Mem.head _)⟩

theorem dget_dinsert_self {d : List (JVal × α)} {k : JVal} {v : α}
    (hk : pyEqS k k = true) : dget (dinsert d k v) k = some v := by
  induction d with
  | nil => simp [dinsert, dget, List.find?, hk]
  | cons p d ih =>
      by_cases hp : pyEqS p.1 k
      · have hAny : ((p :: d).any fun q => pyEqS q.1 k) = true := by simp [hp]
        unfold dinsert
        rw [if_pos hAny]
        simp only [List.map_cons, if_pos hp]
        simp [dget, List.find?_cons, hp]
      · unfold dinsert
        by_cases hAnyT : d.any (fun q => pyEqS q.1 k)
        · have hAny : ((p :: d).any fun q => pyEqS q.1 k) = true := by simp [hAnyT]
          rw [if_pos hAny]
          simp only [List.map_cons, if_neg hp]
          have hstep : dget (p :: d.map (fun q => if pyEqS q.1 k = true then (q.1, v) else q)) k
              = dget (d.map (fun q => if pyEqS q.1 k = true then (q.1, v) else q)) k := by
            simp [dget, List.find?_cons, hp]
          rw [hstep]
          have hih := ih
          unfold dinsert at hih
          rw [if_pos hAnyT] at hih
          exact hih
        · have hAny : ((p :: d).any fun q => pyEqS q.1 k) = false := by
            simp only [List.any_cons, Bool.or_eq_false_iff]
            exact ⟨by simpa using hp, by simpa using hAnyT⟩
          rw [if_neg (by simp [hAny])]
          have hih := ih
          unfold dinsert at hih
          rw [if_neg hAnyT] at hih
          simp only [List.cons_append]
          simp [dget, List.find?_cons, hp] at hih ⊢
          exact hih

theorem dget_dinsert_other {d : List (JVal × α)} {k0 : JVal} {v : α} {k : JVal}
    (hne : pyEqS k0 k = false) : dget (dinsert d k0 v) k = dget d k := by
  induction d with
  | nil => simp [dinsert, dget, List.find?, hne]
  | cons p d ih =>
      have hKeyNe : ∀ q : JVal × α, pyEqS q.1 k0 = true → pyEqS q.1 k = false := by
        intro q hq
        cases hqk : pyEqS q.1 k
        · rfl
        · have := pyEqS_eucl (pyEqS_symm hqk) (pyEqS_symm hq)
          rw [hne] at this
          cases this
      by_cases hp : pyEqS p.1 k0
      · have hAny : ((p :: d).any fun q => pyEqS q.1 k0) = true := by simp [hp]
        unfold dinsert
        rw [if_pos hAny]
        simp only [List.map_cons, if_pos hp]
        have hpk : pyEqS p.1 k = false := hKeyNe p hp
        rw [show dget ((p.1, v) :: d.map (fun q => if pyEqS q.1 k0 = true then (q.1, v) else q)) k
            = dget (d.map (fun q => if pyEqS q.1 k0 = true then (q.1, v) else q)) k from by
          simp [dget, List.find?_cons, hpk]]
        rw [show dget (p :: d) k = dget d k from by simp [dget, List.find?_cons, hpk]]
        by_cases hAnyT : d.any (fun q => pyEqS q.1 k0)
        · have hih := ih
          unfold dinsert at hih
          rw [if_pos hAnyT] at hih
          exact hih
        · have hMapId : d.map (fun q => if pyEqS q.1 k0 = true then (q.1, v) else q) = d := by
            have hcong : ∀ q ∈ d, (if pyEqS q.1 k0 = true then (q.1, v) else q) = id q := by
              intro q hq
              have : pyEqS q.1 k0 = false := by
                cases hc : pyEqS q.1 k0
                · rfl
                · exact absurd (List.any_eq_true.mpr ⟨q, hq, hc⟩) hAnyT
              simp [this]
            exact (List.map_congr_left hcong).trans (List.map_id d)
          rw [hMapId]
      · unfold dinsert
        by_cases hAnyT : d.any (fun q => pyEqS q.1 k0)
        · have hAny : ((p :: d).any fun q => pyEqS q.1 k0) = true := by simp [hAnyT]
          rw [if_pos hAny]
          simp only [List.map_cons, if_neg hp]
          by_cases hpk : pyEqS p.1 k
          · simp [dget, List.find?_cons, hpk]
          · rw [show dget (p :: d.map (fun q => if pyEqS q.1 k0 = true then (q.1, v) else q)) k
                = dget (d.map (fun q => if pyEqS q.1 k0 = true then (q.1, v) else q)) k from by
              simp [dget, List.find?_cons, hpk]]
            rw [show dget (p :: d) k = dget d k from by simp [dget, List.find?_cons, hpk]]
            have hih := ih
            unfold dinsert at hih
            rw [if_pos hAnyT] at hih
            exact hih
        · have hAny : ((p :: d).any fun q => pyEqS q.1 k0) = false := by
            simp only [List.any_cons, Bool.or_eq_false_iff]
            exact ⟨by simpa using hp, by simpa using hAnyT⟩
          rw [if_neg (by simp [hAny])]
          have hih := ih
          unfold dinsert at hih
          rw [if_neg hAnyT] at hih
          by_cases hpk : pyEqS p.1 k
          · simp [dget, List.cons_append, List.find?_cons, hpk]
          · simp only [List.cons_append]
            rw [show dget (p :: (d ++ [(k0, v)])) k = dget (d ++ [(k0, v)]) k from by
              simp [dget, List.find?_cons, hpk]]
            rw [show dget (p :: d) k = dget d k from by simp [dget, List.find?_cons, hpk]]
            exact hih

/-- CPython dict lookup for string-keyed dicts. -/
def dgetS (d : List (String × α)) (k : String) : Option α :=
  (d.find? (fun p => p.1 == k)).map (fun p => p.2)

theorem dgetS_dinsertS_self {d : List (String × α)} {k : String} {v : α} :
    dgetS (dinsertS d k v) k = some v := by
  induction d with
  | nil => simp [dinsertS, dgetS, List.find?]
  | cons p d ih =>
      by_cases hp : p.1 == k
      · have hAny : ((p :: d).any fun q => q.1 == k) = true := by simp [hp]
        unfold dinsertS
        rw [if_pos hAny]
        simp only [List.map_cons, if_pos hp]
        simp [dgetS, List.find?_cons, hp]
      · unfold dinsertS
        by_cases hAnyT : d.any (fun q => q.1 == k)
        · have hAny : ((p :: d).any fun q => q.1 == k) = true := by simp [hAnyT]
          rw [if_pos hAny]
          simp only [List.map_cons, if_neg hp]
          rw [show dgetS (p :: d.map (fun q => if (q.1 == k) = true then (q.1, v) else q)) k
              = dgetS (d.map (fun q => if (q.1 == k) = true then (q.1, v) else q)) k from by
            simp [dgetS, List.find?_cons, hp]]
          have hih := ih
          unfold dinsertS at hih
          rw [if_pos hAnyT] at hih
          exact hih
        · have hp2 : (p.1 == k) = false := by
            cases hc : p.1 == k
            · rfl
            · exact absurd hc hp
          have hAnyT2 : (d.any fun q => q.1 == k) = false := by
            cases hc : d.any fun q => q.1 == k
            · rfl
            · exact absurd hc hAnyT
          have hAny : ((p :: d).any fun q => q.1 == k) = false := by
            simp only [List.any_cons, Bool.or_eq_false_iff]
            exact ⟨hp2, hAnyT2⟩
          rw [if_neg (by simp [hAny])]
          have hih := ih
          unfold dinsertS at hih
          rw [if_neg hAnyT] at hih
          simp only [List.cons_append]
          simp [dgetS, List.find?_cons, hp] at hih ⊢
          exact hih

theorem dgetS_dinsertS_other {d : List (String × α)} {k0 : String} {v : α} {k : String}
    (hne : k0 ≠ k) : dgetS (dinsertS d k0 v) k = dgetS d k := by
  induction d with
  | nil =>
      simp only [dinsertS, List.any_nil, Bool.false_eq_true, if_false, List.nil_append]
      simp [dgetS, List.find?, show (k0 == k) = false from beq_eq_false_iff_ne.mpr hne]
  | cons p d ih =>
      have hKeyNe : ∀ q : String × α, (q.1 == k0) = true → (q.1 == k) = false := by
        intro q hq
        cases hqk : q.1 == k
        · rfl
        · exact absurd ((eq_of_beq hq).symm.trans (eq_of_beq hqk)) hne
      by_cases hp : p.1 == k0
      · have hAny : ((p :: d).any fun q => q.1 == k0) = true := by simp [hp]
        unfold dinsertS
        rw [if_pos hAny]
        simp only [List.map_cons, if_pos hp]
        have hpk : (p.1 == k) = false := hKeyNe p hp
        rw [show dgetS ((p.1, v) :: d.map (fun q => if (q.1 == k0) = true then (q.1, v) else q)) k
            = dgetS (d.map (fun q => if (q.1 == k0) = true then (q.1, v) else q)) k from by
          simp [dgetS, List.find?_cons, hpk]]
        rw [show dgetS (p :: d) k = dgetS d k from by simp [dgetS, List.find?_cons, hpk]]
        by_cases hAnyT : d.any (fun q => q.1 == k0)
        · have hih := ih
          unfold dinsertS at hih
          rw [if_pos hAnyT] at hih
          exact hih
        · have hMapId : d.map (fun q => if (q.1 == k0) = true then (q.1, v) else q) = d := by
            have hcong : ∀ q ∈ d, (if (q.1 == k0) = true then (q.1, v) else q) = id q := by
              intro q hq
              have : (q.1 == k0) = false := by
                cases hc : q.1 == k0
                · rfl
                · exact absurd (List.any_eq_true.mpr ⟨q, hq, hc⟩) hAnyT
              simp [this]
            exact (List.map_congr_left hcong).trans (List.map_id d)
          rw [hMapId]
      · unfold dinsertS
        by_cases hAnyT : d.any (fun q => q.1 == k0)
        · have hAny : ((p :: d).any fun q => q.1 == k0) = true := by simp [hAnyT]
          rw [if_pos hAny]
          simp only [List.map_cons, if_neg hp]
          by_cases hpk : p.1 == k
          · simp [dgetS, List.find?_cons, hpk]
          · rw [show dgetS (p :: d.map (fun q => if (q.1 == k0) = true then (q.1, v) else q)) k
                = dgetS (d.map (fun q => if (q.1 == k0) = true then (q.1, v) else q)) k from by
              simp [dgetS, List.find?_cons, hpk]]
            rw [show dgetS (p :: d) k = dgetS d k from by simp [dgetS, List.find?_cons, hpk]]
            have hih := ih
            unfold dinsertS at hih
            rw [if_pos hAnyT] at hih
            exact hih
        · have hp2 : (p.1 == k0) = false := by
            cases hc : p.1 == k0
            · rfl
            · exact absurd hc hp
          have hAnyT2 : (d.any fun q => q.1 == k0) = false := by
            cases hc : d.any fun q => q.1 == k0
            · rfl
            · exact absurd hc hAnyT
          have hAny : ((p :: d).any fun q => q.1 == k0) = false := by
            simp only [List.any_cons, Bool.or_eq_false_iff]
            exact ⟨hp2, hAnyT2⟩
          rw [if_neg (by simp [hAny])]
          have hih := ih
          unfold dinsertS at hih
          rw [if_neg hAnyT] at hih
          by_cases hpk : p.1 == k
          · simp [dgetS, List.cons_append, List.find?_cons, hpk]
          · simp only [List.cons_append]
            rw [show dgetS (p :: (d ++ [(k0, v)])) k = dgetS (d ++ [(k0, v)]) k from by
              simp [dgetS, List.find?_cons, hpk]]
            rw [show dgetS (p :: d) k = dgetS d k from by simp [dgetS, List.find?_cons, hpk]]
            exact hih

theorem group_lookup_seq {cl : List (JVal × JVal)} {acc gl : List (JVal × GroupInfo)}
    {as bs : List JVal} (h : group_lookup cl acc (as ++ bs) = .ok gl) :
    ∃ mid, group_lookup cl acc as = .ok mid ∧ group_lookup cl mid bs = .ok gl := by
  induction as generalizing acc with
  | nil => exact ⟨acc, rfl, by simpa using h⟩
  | cons gv as ih =>
      rw [List.cons_append] at h
      simp only [group_lookup] at h ⊢
      cases ho : asObj gv with
      | error e => rw [ho] at h; cases h
      | ok gf =>
          rw [ho] at h
          dsimp only at h ⊢
          cases hk : subscr gf "_key" with
          | error e => rw [hk] at h; cases h
          | ok k0 =>
              rw [hk] at h
              dsimp only at h ⊢
              by_cases hc : isHashable (objGetD gf "categoryID" .jnull)
              · rw [if_pos hc] at h ⊢
                by_cases hh : isHashable k0
                · rw [if_pos hh] at h ⊢
                  exact ih h
                · rw [if_neg hh] at h
                  cases h
              · rw [if_neg hc] at h
                cases h

theorem group_lookup_cons_elim {cl : List (JVal × JVal)} {acc gl : List (JVal × GroupInfo)}
    {gv : JVal} {gs : List JVal} {gf : Obj} {k : JVal}
    (h : group_lookup cl acc (gv :: gs) = .ok gl) (ho : asObj gv = .ok gf)
    (hk : subscr gf "_key" = .ok k) :
    isHashable k = true ∧
    group_lookup cl
      (dinsert acc k ⟨get_name gf, objGetD gf "categoryID" .jnull,
        (dget cl (objGetD gf "categoryID" .jnull)).getD (.jstr "Unknown")⟩) gs = .ok gl := by
  simp only [group_lookup] at h
  rw [ho] at h
  dsimp only at h
  rw [hk] at h
  dsimp only at h
  by_cases hc : isHashable (objGetD gf "categoryID" .jnull)
  · rw [if_pos hc] at h
    by_cases hh : isHashable k
    · rw [if_pos hh] at h
      exact ⟨hh, h⟩
    · rw [if_neg hh] at h
      cases h
  · rw [if_neg hc] at h
    cases h

theorem group_lookup_skip {cl : List (JVal × JVal)} {acc gl : List (JVal × GroupInfo)}
    {gs : List JVal} {k : JVal} (h : group_lookup cl acc gs = .ok gl)
    (hno : ∀ gv ∈ gs, ∀ gf k2, asObj gv = .ok gf → subscr gf "_key" = .ok k2 →
      pyEqS k2 k = false) :
    dget gl k = dget acc k := by
  induction gs generalizing acc with
  | nil =>
      simp only [group_lookup] at h
      cases h
      rfl
  | cons gv gs ih =>
      simp only [group_lookup] at h
      cases ho : asObj gv with
      | error e => rw [ho] at h; cases h
      | ok gf =>
          rw [ho] at h
          dsimp only at h
          cases hk : subscr gf "_key" with
          | error e => rw [hk] at h; cases h
          | ok k0 =>
              rw [hk] at h
              dsimp only at h
              by_cases hc : isHashable (objGetD gf "categoryID" .jnull)
              · rw [if_pos hc] at h
                by_cases hh : isHashable k0
                · rw [if_pos hh] at h
                  have hne : pyEqS k0 k = false :=
                    hno gv (List.mem_cons_self _ _) gf k0 ho hk
                  have := ih h (fun gv2 hgv2 gf2 k2 ho2 hk2 =>
                    hno gv2 (List.mem_cons_of_mem _ hgv2) gf2 k2 ho2 hk2)
                  rw [this]
                  exact dget_dinsert_other hne
                · rw [if_neg hh] at h
                  cases h
              · rw [if_neg hc] at h
                cases h

theorem build_reprocessing_seq {oreIds minIds : List JVal}
    {acc rp : List (String × List Yield)} {as bs : List JVal}
    (h : build_reprocessing oreIds minIds acc (as ++ bs) = .ok rp) :
    ∃ mid, build_reprocessing oreIds minIds acc as = .ok mid ∧
      build_reprocessing oreIds minIds mid bs = .ok rp := by
  induction as generalizing acc with
  | nil => exact ⟨acc, rfl, by simpa using h⟩
  | cons mv as ih =>
      rw [List.cons_append] at h
      simp only [build_reprocessing] at h ⊢
      cases ho : asObj mv with
      | error e => rw [ho] at h; cases h
      | ok mt =>
          rw [ho] at h
          dsimp only at h ⊢
          cases hk : subscr mt "_key" with
          | error e => rw [hk] at h; cases h
          | ok tid =>
              rw [hk] at h
              dsimp only at h ⊢
              by_cases hh : isHashable tid
              · rw [if_pos hh] at h ⊢
                by_cases hs : smem oreIds tid
                · rw [if_pos hs] at h ⊢
                  cases ha : asArr (objGetD mt "materials" (.jarr [])) with
                  | error e => rw [ha] at h; cases h
                  | ok marr =>
                      rw [ha] at h
                      dsimp only at h ⊢
                      cases hy : yields_loop minIds marr with
                      | error e => rw [hy] at h; cases h
                      | ok ys =>
                          rw [hy] at h
                          dsimp only at h ⊢
                          by_cases he : ys.isEmpty
                          · rw [if_pos he] at h ⊢
                            exact ih h
                          · rw [if_neg he] at h ⊢
                            exact ih h
                · rw [if_neg hs] at h ⊢
                  exact ih h
              · rw [if_neg hh] at h
                cases h

theorem build_reprocessing_cons_elim {oreIds minIds : List JVal}
    {acc rp : List (String × List Yield)} {mv : JVal} {ms : List JVal} {mt : Obj}
    {tid : JVal} {marr : List JVal} {ys : List Yield}
    (h : build_reprocessing oreIds minIds acc (mv :: ms) = .ok rp)
    (ho : asObj mv = .ok mt) (hk : subscr mt "_key" = .ok tid)
    (hs : smem oreIds tid = true)
    (ha : asArr (objGetD mt "materials" (.jarr [])) = .ok marr)
    (hy : yields_loop minIds marr = .ok ys) :
    (ys = [] → build_reprocessing oreIds minIds acc ms = .ok rp) ∧
    (ys ≠ [] → build_reprocessing oreIds minIds (dinsertS acc (pyStr tid) ys) ms = .ok rp) := by
  simp only [build_reprocessing] at h
  rw [ho] at h
  dsimp only at h
  rw [hk] at h
  dsimp only at h
  by_cases hh : isHashable tid
  · rw [if_pos hh, if_pos hs, ha] at h
    dsimp only at h
    rw [hy] at h
    dsimp only at h
    by_cases he : ys.isEmpty
    · rw [if_pos he] at h
      refine ⟨fun _ => h, fun hne => ?_⟩
      rw [List.isEmpty_iff] at he
      exact absurd he hne
    · rw [if_neg he] at h
      refine ⟨fun hnil => ?_, fun _ => h⟩
      rw [hnil] at he
      simp at he
  · rw [if_neg hh] at h
    cases h

theorem build_reprocessing_skip {oreIds minIds : List JVal}
    {acc rp : List (String × List Yield)} {ms : List JVal} {s : String}
    (h : build_reprocessing oreIds minIds acc ms = .ok rp)
    (hno : ∀ mv ∈ ms, ∀ mt tid2, asObj mv = .ok mt → subscr mt "_key" = .ok tid2 →
      pyStr tid2 ≠ s) :
    dgetS rp s = dgetS acc s := by
  induction ms generalizing acc with
  | nil =>
      simp only [build_reprocessing] at h
      cases h
      rfl
  | cons mv ms ih =>
      simp only [build_reprocessing] at h
      cases ho : asObj mv with
      | error e => rw [ho] at h; cases h
      | ok mt =>
          rw [ho] at h
          dsimp only at h
          cases hk : subscr mt "_key" with
          | error e => rw [hk] at h; cases h
          | ok tid =>
              rw [hk] at h
              dsimp only at h
              by_cases hh : isHashable tid
              · rw [if_pos hh] at h
                have hihno : ∀ mv2 ∈ ms, ∀ mt2 tid2, asObj mv2 = .ok mt2 →
                    subscr mt2 "_key" = .ok tid2 → pyStr tid2 ≠ s :=
                  fun mv2 hmv2 mt2 tid2 ho2 hk2 =>
                    hno mv2 (List.mem_cons_of_mem _ hmv2) mt2 tid2 ho2 hk2
                by_cases hs : smem oreIds tid
                · rw [if_pos hs] at h
                  cases ha : asArr (objGetD mt "materials" (.jarr [])) with
                  | error e => rw [ha] at h; cases h
                  | ok marr =>
                      rw [ha] at h
                      dsimp only at h
                      cases hy : yields_loop minIds marr with
                      | error e => rw [hy] at h; cases h
                      | ok ys =>
                          rw [hy] at h
                          dsimp only at h
                          by_cases he : ys.isEmpty
                          · rw [if_pos he] at h
                            exact ih h hihno
                          · rw [if_neg he] at h
                            rw [ih h hihno]
                            exact dgetS_dinsertS_other
                              (hno mv (List.mem_cons_self _ _) mt tid ho hk)
                · rw [if_neg hs] at h
                  exact ih h hihno
              · rw [if_neg hh] at h
                cases h

/-- Groups for the C9 counterexample: one ore group. -/
def c9groups : List JVal :=
  [.jobj [("_key", .jnum 450), ("categoryID", .jnum 25), ("name", .jobj [("en", .jstr "G")])]]

/-- Types for the C9 counterexample: one ore type (key 5), one mineral
(key 34). -/
def c9types : List JVal :=
  [.jobj [("_key", .jnum 5), ("groupID", .jnum 450), ("name", .jobj [("en", .jstr "A")]),
          ("published", .jbool true)],
   .jobj [("_key", .jnum 34), ("groupID", .jnum 18), ("name", .jobj [("en", .jstr "T")]),
          ("published", .jbool true)]]

/-- Materials for the C9 counterexample: two records sharing `_key` 5 — the
earlier one with a mineral yield, the later one with an empty material
list. -/
def c9mats : List JVal :=
  [.jobj [("_key", .jnum 5),
          ("materials", .jarr [.jobj [("materialTypeID", .jnum 34), ("quantity", .jnum 100)]])],
   .jobj [("_key", .jnum 5), ("materials", .jarr [])]]

/-- Counterexample to C9 as stated: with two materials records sharing
`_key` 5 where the later one filters to an empty yield list, the later
record does not determine ore 5's reprocessing entry (it would produce no
entry at all) — the run keeps the earlier record's entry, so the earlier
record does leave a trace in the output. -/
theorem claim_C9_counterexample :
    ores_main c9groups c9types c9mats =
      .ok ⟨⟨"EVE Online SDE", 1, 1, 1⟩,
        [⟨.jnum 5, "A", .jnum 0, .jnum 450, false⟩],
        [⟨.jnum 34, .jstr "T", .jnum 0⟩],
        [("5", [⟨.jnum 34, .jnum 100⟩])]⟩ ∧
    yields_loop [.jnum 34] [] = .ok ([] : List Yield) ∧
    dgetS [("5", [(⟨.jnum 34, .jnum 100⟩ : Yield)])] "5" = some [⟨.jnum 34, .jnum 100⟩] :=
  ⟨rfl, rfl, rfl⟩

/-- Claim C9, corrected: when two records of a keyed source table share a
`_key`, the later record wins in the lookup built from that table — for the
group lookup unconditionally (the later record's projection is what the
lookup returns, provided no yet-later record shares the key); for the
reprocessing map only when the later record's filtered yield list is
non-empty.  A later duplicate whose filtered yields are empty performs no
assignment, leaving the earlier record's entry in place. -/
theorem claim_C9_later_wins_amended :
    (∀ (cl : List (JVal × JVal)) (gs1 gs2 : List JVal) (gv : JVal) (gf : Obj) (k : JVal)
        (gl : List (JVal × GroupInfo)),
      group_lookup cl [] (gs1 ++ gv :: gs2) = .ok gl →
      asObj gv = .ok gf → subscr gf "_key" = .ok k →
      (∀ gv2 ∈ gs2, ∀ gf2 k2, asObj gv2 = .ok gf2 → subscr gf2 "_key" = .ok k2 →
        pyEqS k2 k = false) →
      dget gl k = some ⟨get_name gf, objGetD gf "categoryID" .jnull,
        (dget cl (objGetD gf "categoryID" .jnull)).getD (.jstr "Unknown")⟩) ∧
    (∀ (oreIds minIds : List JVal) (ms1 ms2 : List JVal) (mv : JVal) (mt : Obj)
        (tid : JVal) (marr : List JVal) (ys : List Yield)
        (rp rp1 : List (String × List Yield)),
      build_reprocessing oreIds minIds [] (ms1 ++ mv :: ms2) = .ok rp →
      build_reprocessing oreIds minIds [] ms1 = .ok rp1 →
      asObj mv = .ok mt → subscr mt "_key" = .ok tid → smem oreIds tid = true →
      asArr (objGetD mt "materials" (.jarr [])) = .ok marr →
      yields_loop minIds marr = .ok ys →
      (∀ mv2 ∈ ms2, ∀ mt2 tid2, asObj mv2 = .ok mt2 → subscr mt2 "_key" = .ok tid2 →
        pyStr tid2 ≠ pyStr tid) →
      (ys ≠ [] → dgetS rp (pyStr tid) = some ys) ∧
      (ys = [] → dgetS rp (pyStr tid) = dgetS rp1 (pyStr tid))) := by
  constructor
  · intro cl gs1 gs2 gv gf k gl h ho hk hno
    rcases group_lookup_seq h with ⟨mid, hmid, hrest⟩
    rcases group_lookup_cons_elim hrest ho hk with ⟨hh, htail⟩
    rw [group_lookup_skip htail hno]
    exact dget_dinsert_self (pyEqS_refl hh)
  · intro oreIds minIds ms1 ms2 mv mt tid marr ys rp rp1 h hrp1 ho hk hs ha hy hno
    rcases build_reprocessing_seq h with ⟨mid, hmid, hrest⟩
    rw [hrp1] at hmid
    cases hmid
    rcases build_reprocessing_cons_elim hrest ho hk hs ha hy with ⟨hempty, hfull⟩
    constructor
    · intro hne
      rw [build_reprocessing_skip (hfull hne) hno]
      exact dgetS_dinsertS_self
    · intro hnil
      rw [build_reprocessing_skip (hempty hnil) hno]

/-- Group record used in the C9 witness. -/
def c9gf : Obj :=
  [("_key", .jnum 450), ("categoryID", .jnum 25), ("name", .jobj [("en", .jstr "Veldspar")])]

/-- Witness for (the amended) C9: a single group record determines its own
lookup entry, and at the counterexample's materials table the later
empty-yield duplicate leaves the reprocessing lookup pointing at the
earlier record's entry. -/
theorem claim_C9_witness :
    dget [(JVal.jnum 450,
        (⟨.jstr "Veldspar", .jnum 25, .jstr "Unknown"⟩ : GroupInfo))] (.jnum 450) =
      some ⟨.jstr "Veldspar", .jnum 25, .jstr "Unknown"⟩ ∧
    dgetS [("5", [(⟨.jnum 34, .jnum 100⟩ : Yield)])] (pyStr (.jnum 5)) =
      some [⟨.jnum 34, .jnum 100⟩] := by
  constructor
  · have := claim_C9_later_wins_amended.1 [] [] [] (.jobj c9gf) c9gf (.jnum 450)
      [(.jnum 450, ⟨.jstr "Veldspar", .jnum 25, .jstr "Unknown"⟩)] rfl rfl rfl
      (fun gv2 hgv2 => absurd hgv2 (List.not_mem_nil _))
    exact this
  · have := (claim_C9_later_wins_amended.2 [.jnum 5] [.jnum 34]
      [] []
      (.jobj [("_key", .jnum 5),
        ("materials", .jarr [.jobj [("materialTypeID", .jnum 34), ("quantity", .jnum 100)]])])
      [("_key", .jnum 5),
        ("materials", .jarr [.jobj [("materialTypeID", .jnum 34), ("quantity", .jnum 100)]])]
      (.jnum 5) [.jobj [("materialTypeID", .jnum 34), ("quantity", .jnum 100)]]
      [⟨.jnum 34, .jnum 100⟩]
      [("5", [⟨.jnum 34, .jnum 100⟩])] []
      rfl rfl rfl rfl rfl rfl rfl
      (fun mv2 hmv2 => absurd hmv2 (List.not_mem_nil _))).1 (by simp)
    exact this

theorem pyEqS_hashable {x y : JVal} (h : pyEqS x y = true) : isHashable y = true := by
  cases x <;> cases y <;> simp_all [pyEqS, isHashable]

theorem smem_hashable {s : List JVal} {k : JVal} (h : smem s k = true) :
    isHashable k = true := by
  rcases smem_exists h with ⟨x, _, hx⟩
  exact pyEqS_hashable hx

theorem classify_ore_shape {ogids : List JVal} {t : Obj} {r : Option (Ore ⊕ Mineral)}
    (h : classify ogids t = .ok r)
    (hp : pyTruthy (objGetD t "published" (.jbool false)) = true)
    (hs : smem ogids (objGetD t "groupID" .jnull) = true) :
    ∃ o : Ore, r = some (.inl o) ∧ get_name t = .jstr o.name ∧
      subscr t "_key" = .ok o.typeID ∧
      o.compressed = containsSub (lowerStr o.name) "compressed" := by
  unfold classify at h
  cases hk : subscr t "_key" with
  | error e => rw [hk] at h; cases h
  | ok typeID =>
      rw [hk] at h
      dsimp only at h
      rw [if_pos hp, if_pos (smem_hashable hs), if_pos hs] at h
      cases hn : get_name t with
      | jstr s =>
          rw [hn] at h
          cases h
          exact ⟨_, rfl, rfl, rfl, rfl⟩
      | jnull => rw [hn] at h; cases h
      | jbool b => rw [hn] at h; cases h
      | jnum q => rw [hn] at h; cases h
      | jarr xs => rw [hn] at h; cases h
      | jobj fs => rw [hn] at h; cases h

theorem classify_mineral_shape {ogids : List JVal} {t : Obj} {r : Option (Ore ⊕ Mineral)}
    (h : classify ogids t = .ok r)
    (hp : pyTruthy (objGetD t "published" (.jbool false)) = true)
    (hs : smem ogids (objGetD t "groupID" .jnull) = false)
    (h18 : pyEqS (objGetD t "groupID" .jnull) (.jnum 18) = true) :
    ∃ m : Mineral, r = some (.inr m) ∧ subscr t "_key" = .ok m.typeID ∧
      m = ⟨m.typeID, get_name t, objGetD t "volume" (.jnum 0)⟩ := by
  unfold classify at h
  cases hk : subscr t "_key" with
  | error e => rw [hk] at h; cases h
  | ok typeID =>
      rw [hk] at h
      dsimp only at h
      rw [if_pos hp, if_pos (pyEqS_hashable (pyEqS_symm h18)), if_neg (by simp [hs]), if_pos h18] at h
      cases h
      exact ⟨_, rfl, rfl, rfl⟩

theorem extract_om_all_ok {ogids : List JVal} {ts : List JVal}
    {om : List Ore × List Mineral} (h : extract_om ogids ts = .ok om) :
    ∀ tv ∈ ts, ∃ t r, asObj tv = .ok t ∧ classify ogids t = .ok r := by
  induction ts generalizing om with
  | nil =>
      intro tv htv
      cases htv
  | cons tv0 ts ih =>
      simp only [extract_om] at h
      cases ho : asObj tv0 with
      | error e => rw [ho] at h; cases h
      | ok t =>
          rw [ho] at h
          dsimp only at h
          cases hc : classify ogids t with
          | error e => rw [hc] at h; cases h
          | ok r =>
              rw [hc] at h
              dsimp only at h
              cases hr : extract_om ogids ts with
              | error e => rw [hr] at h; cases h
              | ok rest =>
                  intro tv htv
                  rcases List.mem_cons.mp htv with heq | hm
                  · exact ⟨t, r, heq ▸ ho, hc⟩
                  · exact ih hr tv hm

theorem extract_om_disjoint {ogids : List JVal} {ts : List JVal}
    {om : List Ore × List Mineral} (h : extract_om ogids ts = .ok om)
    (hd : ts.Pairwise (fun a b => ∀ fa fb ka kb, asObj a = .ok fa → asObj b = .ok fb →
      subscr fa "_key" = .ok ka → subscr fb "_key" = .ok kb → pyEqS ka kb = false)) :
    ∀ o ∈ om.1, ∀ m ∈ om.2, pyEqS o.typeID m.typeID = false := by
  induction ts generalizing om with
  | nil =>
      simp only [extract_om] at h
      cases h
      intro o ho
      cases ho
  | cons tv ts ih =>
      have hdHead := (List.pairwise_cons.mp hd).1
      have hdTail := (List.pairwise_cons.mp hd).2
      simp only [extract_om] at h
      cases ho : asObj tv with
      | error e => rw [ho] at h; cases h
      | ok t =>
          rw [ho] at h
          dsimp only at h
          cases hc : classify ogids t with
          | error e => rw [hc] at h; cases h
          | ok r =>
              rw [hc] at h
              dsimp only at h
              cases hr : extract_om ogids ts with
              | error e => rw [hr] at h; cases h
              | ok rest =>
                  rw [hr] at h
                  dsimp only at h
                  cases r with
                  | some x =>
                      cases x with
                      | inl o0 =>
                          cases h
                          intro o hom m hmm
                          rcases List.mem_cons.mp hom with heq | hmo
                          · subst heq
                            rcases extract_om_min_src hr m hmm with ⟨tv2, htv2, t2, ht2, hc2⟩
                            have hk0 := (classify_inl_elim hc).2.2.2.2.1
                            have hk2 := (classify_inr_elim hc2).2.2.2.2.1
                            exact hdHead tv2 htv2 t t2 o.typeID m.typeID ho ht2 hk0 hk2
                          · exact ih hr hdTail o hmo m hmm
                      | inr m0 =>
                          cases h
                          intro o hom m hmm
                          rcases List.mem_cons.mp hmm with heq | hmo
                          · subst heq
                            rcases extract_om_ore_src hr o hom with ⟨tv2, htv2, t2, ht2, hc2⟩
                            have hk0 := (classify_inr_elim hc).2.2.2.2.1
                            have hk2 := (classify_inl_elim hc2).2.2.2.2.1
                            exact pyEqS_false_symm
                              (hdHead tv2 htv2 t t2 m.typeID o.typeID ho ht2 hk0 hk2)
                          · exact ih hr hdTail o hom m hmo
                  | none =>
                      cases h
                      intro o hom m hmm
                      exact ih hr hdTail o hom m hmm

/-- Claim C3, corrected: relative to the ore-group id set, every output ore
has `compressed` equal to the case-insensitive substring test of
`"compressed"` against its resolved name; outputs trace back to published
sources classified by the code's branch order (ore-group membership first,
then `groupID == 18`); every published type whose groupID is in the
ore-group set is emitted as an ore, and every published type whose groupID
is NOT in the ore-group set but equals 18 is emitted as a mineral (a
groupID-18 type IS emitted as an ore instead whenever group 18 itself has
categoryID 25); and the ores/minerals type ids are disjoint provided no two
records of the types file share a `_key` (they need not be disjoint under
duplicated keys). -/
theorem claim_C3_classification_amended {groups types mats : List JVal} {out : OresOutput}
    {ogids : List JVal} (h : ores_main groups types mats = .ok out)
    (hog : ore_group_ids [] groups = .ok ogids) :
    (∀ o ∈ out.ores, o.compressed = containsSub (lowerStr o.name) "compressed") ∧
    (∀ o ∈ out.ores, ∃ tv ∈ types, ∃ t, asObj tv = .ok t ∧
      classify ogids t = .ok (some (.inl o)) ∧
      smem ogids (objGetD t "groupID" .jnull) = true) ∧
    (∀ m ∈ out.minerals, ∃ tv ∈ types, ∃ t, asObj tv = .ok t ∧
      classify ogids t = .ok (some (.inr m)) ∧
      smem ogids (objGetD t "groupID" .jnull) = false ∧
      pyEqS (objGetD t "groupID" .jnull) (.jnum 18) = true) ∧
    (∀ tv ∈ types, ∀ t, asObj tv = .ok t →
      pyTruthy (objGetD t "published" (.jbool false)) = true →
      smem ogids (objGetD t "groupID" .jnull) = true →
      ∃ o ∈ out.ores, classify ogids t = .ok (some (.inl o))) ∧
    (∀ tv ∈ types, ∀ t, asObj tv = .ok t →
      pyTruthy (objGetD t "published" (.jbool false)) = true →
      smem ogids (objGetD t "groupID" .jnull) = false →
      pyEqS (objGetD t "groupID" .jnull) (.jnum 18) = true →
      ∃ m ∈ out.minerals, classify ogids t = .ok (some (.inr m))) ∧
    (types.Pairwise (fun a b => ∀ fa fb ka kb, asObj a = .ok fa → asObj b = .ok fb →
      subscr fa "_key" = .ok ka → subscr fb "_key" = .ok kb → pyEqS ka kb = false) →
      ∀ o ∈ out.ores, ∀ m ∈ out.minerals, pyEqS o.typeID m.typeID = false) := by
  rcases ores_main_elim h with ⟨ogids2, om, oreIds, minIds, h1, h2, h3, h4, h5, h6, h7, h8⟩
  rw [hog] at h1
  cases h1
  have homem : ∀ o, o ∈ out.ores ↔ o ∈ om.1 := by
    intro o
    rw [h7]
    exact List.mem_insertionSort _
  refine ⟨?_, ?_, ?_, ?_, ?_, ?_⟩
  · intro o hom
    rcases extract_om_ore_src h2 o ((homem o).mp hom) with ⟨tv, htv, t, hto, htc⟩
    have := (classify_inl_elim htc).2.2.2.2.2
    exact congrArg Ore.compressed this
  · intro o hom
    rcases extract_om_ore_src h2 o ((homem o).mp hom) with ⟨tv, htv, t, hto, htc⟩
    exact ⟨tv, htv, t, hto, htc, (classify_inl_elim htc).2.2.1⟩
  · intro m hmm
    rcases extract_om_min_src h2 m (sortPyList_mem h6 m hmm) with ⟨tv, htv, t, hto, htc⟩
    exact ⟨tv, htv, t, hto, htc, (classify_inr_elim htc).2.2.1, (classify_inr_elim htc).2.2.2.1⟩
  · intro tv htv t hto hp hs
    rcases extract_om_all_ok h2 tv htv with ⟨t2, r, hto2, htc2⟩
    rw [hto] at hto2
    cases hto2
    rcases classify_ore_shape htc2 hp hs with ⟨o, hro, _, _, _⟩
    subst hro
    refine ⟨o, ?_, htc2⟩
    exact (homem o).mpr
      (((extract_om_src_mem h2 tv htv t _ hto htc2).1) o rfl)
  · intro tv htv t hto hp hs h18
    rcases extract_om_all_ok h2 tv htv with ⟨t2, r, hto2, htc2⟩
    rw [hto] at hto2
    cases hto2
    rcases classify_mineral_shape htc2 hp hs h18 with ⟨m, hrm, _, _⟩
    subst hrm
    refine ⟨m, ?_, htc2⟩
    exact sortPyList_mem_rev h6 m
      (((extract_om_src_mem h2 tv htv t _ hto htc2).2) m rfl)
  · intro hd o hom m hmm
    exact extract_om_disjoint h2 hd o ((homem o).mp hom) m (sortPyList_mem h6 m hmm)

/-- Groups for the first C3 counterexample input: one ordinary ore group. -/
def c3groupsA : List JVal :=
  [.jobj [("_key", .jnum 450), ("categoryID", .jnum 25), ("name", .jobj [("en", .jstr "G")])]]

/-- Types for the first C3 counterexample input: two records sharing
`_key` 5, one classified as ore, one as mineral. -/
def c3typesA : List JVal :=
  [.jobj [("_key", .jnum 5), ("groupID", .jnum 450), ("name", .jobj [("en", .jstr "A")]),
          ("published", .jbool true)],
   .jobj [("_key", .jnum 5), ("groupID", .jnum 18), ("name", .jobj [("en", .jstr "B")]),
          ("published", .jbool true)]]

/-- Groups for the second C3 counterexample input: group 18 itself is an
ore group (categoryID 25). -/
def c3groupsB : List JVal :=
  [.jobj [("_key", .jnum 18), ("categoryID", .jnum 25), ("name", .jobj [("en", .jstr "M")])]]

/-- Type record for the second C3 counterexample input: published, with
groupID 18. -/
def c3typeB : Obj :=
  [("_key", .jnum 7), ("groupID", .jnum 18), ("name", .jobj [("en", .jstr "C")]),
   ("published", .jbool true)]

/-- Counterexample to C3 as stated, in two parts.  First, with two type
records sharing `_key` 5 the run emits type id 5 both as an ore and as a
mineral, refuting the claimed per-type-id mutual exclusion.  Second, when
group 18 itself has categoryID 25, a published type with `groupID == 18` is
emitted as an ore and not as a mineral, refuting "every published Type
whose groupID equals 18 is emitted as a Mineral". -/
theorem claim_C3_counterexample :
    (ores_main c3groupsA c3typesA [] =
      .ok ⟨⟨"EVE Online SDE", 1, 1, 0⟩,
        [⟨.jnum 5, "A", .jnum 0, .jnum 450, false⟩],
        [⟨.jnum 5, .jstr "B", .jnum 0⟩], []⟩ ∧
      pyEqS (JVal.jnum 5) (JVal.jnum 5) = true) ∧
    (ores_main c3groupsB [.jobj c3typeB] [] =
      .ok ⟨⟨"EVE Online SDE", 1, 0, 0⟩,
        [⟨.jnum 7, "C", .jnum 0, .jnum 18, false⟩], [], []⟩ ∧
      pyEqS (objGetD c3typeB "groupID" .jnull) (.jnum 18) = true ∧
      pyTruthy (objGetD c3typeB "published" (.jbool false)) = true) :=
  ⟨⟨rfl, rfl⟩, ⟨rfl, rfl, rfl⟩⟩

/-- Witness for (the amended) C3 at the example scenario: the Veldspar
ore's `compressed` flag equals the substring test on its name, and with the
two distinct type keys the ore and mineral ids are disjoint. -/
theorem claim_C3_witness :
    (exOre.compressed = containsSub (lowerStr exOre.name) "compressed") ∧
    pyEqS exOre.typeID exMin.typeID = false := by
  have hog : ore_group_ids [] exGroups = .ok [.jnum 450] := rfl
  have hres := claim_C3_classification_amended exOres_eval hog
  refine ⟨hres.1 exOre (List.Mem.head _), ?_⟩
  have hd : exTypes.Pairwise (fun a b => ∀ fa fb ka kb, asObj a = .ok fa →
      asObj b = .ok fb → subscr fa "_key" = .ok ka → subscr fb "_key" = .ok kb →
      pyEqS ka kb = false) := by
    constructor
    · intro b hb fa fb ka kb hfa hfb hka hkb
      rcases List.mem_singleton.mp hb with rfl
      cases hfa
      cases hka
      cases hfb
      cases hkb
      rfl
    · exact List.pairwise_singleton _ _
  exact hres.2.2.2.2.2 hd exOre (List.Mem.head _) exMin (List.Mem.head _)
